import Mathlib

/-!
Verification of the FERAT checker core (ferat-tools).

This file gives a shallow embedding, in Lean 4, of the data model and the
checking/parsing algorithms of the FERAT proof checker, translated from the C
sources (check.c, qbf.c, parsing.c, expansion.c, sorting.c, arraylist.c), and
proves or refutes the specification claims about them.

Modelling conventions:
  * C `uint32_t` variables and literals become `Nat`; arithmetic that cannot
    overflow in reachable states is plain `Nat` arithmetic, and the one place
    where a `uint32_t` accumulator can genuinely wrap (the decimal reader in
    `expect_number`) reduces modulo `2 ^ 32` explicitly.
  * The variable-keyed hash tables (`qbf->prefix_mapping`,
    `expansion->exp_var_mappings`) are modelled as association lists with
    `List.lookup`; `ht_get` returning `.ok = false` becomes `none`.
  * Code that aborts (a failed `assert`, or `fatal_parse_error`) is modelled
    with `Option`/`Except`: `none` / `.error` marks abnormal termination.
  * Array indexing `a[i]` becomes `List.getD l i 0`; all in-bounds accesses of
    the C code stay in bounds in the model.
-/

set_option linter.unusedVariables false

/-! ## Literal encoding (common.h) -/

abbrev Variable := Nat

abbrev Literal := Nat

/-- `#define LIT2VAR(lit) ((lit) >> 1)` -/
def LIT2VAR (lit : Literal) : Variable := lit >>> 1

/-- `#define LITSIGNBIT(lit) ((lit) & 1)` -/
def LITSIGNBIT (lit : Literal) : Nat := lit &&& 1

/-- `#define VAR2LIT(var, signb) ((((Variable)(var)) << 1) | (signb))` -/
def VAR2LIT (v : Variable) (signb : Nat) : Literal := (v <<< 1) ||| signb

/-- `#define LIT_NEG(lit) ((lit) ^ 1)` -/
def LIT_NEG (lit : Literal) : Literal := lit ^^^ 1

/-! ## QBF data model (qbf.h) -/

/-- `QuantType` from qbf.h. -/
inductive QuantType where
  | qnone
  | existential
  | universal
deriving DecidableEq, Repr, BEq

/-- `Quantifier` from qbf.h: a type, an ordering index in the prefix, and the
bound variables (C field `variables`, here `vars` since that word is a Lean
command). -/
structure Quantifier where
  type : QuantType
  ordering : Nat
  vars : List Variable
deriving DecidableEq, Repr, BEq

/-- `QBF` from qbf.h.  The field `pre` models `qbf->prefix` (that C field name
is avoided in this development), and `prefix_mapping` models the
variable-to-quantifier hash table as an association list. -/
structure QBF where
  pre : List Quantifier
  matrix : List (List Literal)
  prefix_mapping : List (Variable × Quantifier)
deriving DecidableEq, Repr

/-! ## Expansion data model (expansion.h)

The C `ExpVarMapping` fields `annotation` / `num_annotation_literals` are
modelled by the single list field `annot` (the C field name cannot be used
verbatim here); its length plays the role of `num_annotation_literals`. -/

structure ExpVarMapping where
  qbf_var : Variable
  exp_var : Variable
  annot : List Literal
deriving DecidableEq, Repr

/-- `Expansion` from expansion.h, restricted to the fields the checker reads:
the variable mapping table and the optional clause-origin map (`NULL` becomes
`none`). -/
structure Expansion where
  exp_var_mappings : List (Variable × ExpVarMapping)
  clause_origins : Option (List Nat)
deriving DecidableEq, Repr

/-- Bridge between the Bool-valued `List.contains` used in the embedding (the
C linear scans) and membership. -/
theorem list_contains_iff {l : List Nat} {x : Nat} :
    l.contains x = true ↔ x ∈ l := List.elem_iff

/-! ## Existential-literal test (check.c, `ferat_test_expansion_origin_in_QBF`) -/

/-- The first loop of `ferat_test_expansion_origin_in_QBF` (check.c lines
101-114): for each expansion literal, look up its mapping (`assert(result.ok)`
becomes `none`), translate it with `VAR2LIT(mapping->qbf_var,
LITSIGNBIT(exp_lit))`, and search the QBF clause for the translated literal;
`return false` on the first literal not found. -/
def ferat_exp_lits_in_qbf_clause (qbf_clause : List Literal)
    (expansion : Expansion) : List Literal → Option Bool
  | [] => some true
  | exp_lit :: rest =>
    match List.lookup (LIT2VAR exp_lit) expansion.exp_var_mappings with
    | none => none
    | some mapping =>
      if qbf_clause.contains (VAR2LIT mapping.qbf_var (LITSIGNBIT exp_lit)) then
        ferat_exp_lits_in_qbf_clause qbf_clause expansion rest
      else
        some false

/-- The second loop of `ferat_test_expansion_origin_in_QBF` (check.c lines
117-131): count the literals of the QBF clause that are existentially
quantified, or free (`ht_get` not ok). -/
def num_exist_qbf_lits (qbf : QBF) (qbf_clause : List Literal) : Nat :=
  qbf_clause.countP (fun lit =>
    match List.lookup (LIT2VAR lit) qbf.prefix_mapping with
    | some quant => quant.type == QuantType.existential
    | none => true)

/-- `ferat_test_expansion_origin_in_QBF` from check.c: all expansion literals
must translate into the QBF clause, and the number of expansion literals must
equal the number of existential-or-free literals of the QBF clause.  `none`
models the `assert(result.ok)` failure on a missing variable mapping. -/
def ferat_test_expansion_origin_in_QBF (qbf_clause exp_clause : List Literal)
    (qbf : QBF) (expansion : Expansion) : Option Bool :=
  match ferat_exp_lits_in_qbf_clause qbf_clause expansion exp_clause with
  | none => none
  | some false => some false
  | some true => some (exp_clause.length == num_exist_qbf_lits qbf qbf_clause)

/-! ### C1: correctness of the existential-literal test -/

/-- The property checked by the first loop of the existential-literal test:
every expansion literal, translated through its mapping record, occurs in the
QBF clause. -/
def ExpLitsTranslated (Q E : List Literal) (expansion : Expansion) : Prop :=
  ∀ e ∈ E, ∀ m, List.lookup (LIT2VAR e) expansion.exp_var_mappings = some m →
    VAR2LIT m.qbf_var (LITSIGNBIT e) ∈ Q

theorem ferat_exp_lits_in_qbf_clause_spec (Q : List Literal)
    (expansion : Expansion) (E : List Literal)
    (hmap : ∀ e ∈ E, (List.lookup (LIT2VAR e) expansion.exp_var_mappings).isSome) :
    (ferat_exp_lits_in_qbf_clause Q expansion E = some true ↔
      ExpLitsTranslated Q E expansion) ∧
    ferat_exp_lits_in_qbf_clause Q expansion E ≠ none := by
  induction E with
  | nil =>
    refine ⟨⟨fun _ => ?_, fun _ => rfl⟩, by simp [ferat_exp_lits_in_qbf_clause]⟩
    intro e he
    exact absurd he (List.not_mem_nil e)
  | cons e rest ih =>
    obtain ⟨m, hm⟩ := Option.isSome_iff_exists.mp (hmap e (List.mem_cons_self e rest))
    have hrest : ∀ e' ∈ rest,
        (List.lookup (LIT2VAR e') expansion.exp_var_mappings).isSome :=
      fun e' h' => hmap e' (List.mem_cons_of_mem e h')
    obtain ⟨ih_iff, ih_ne⟩ := ih hrest
    simp only [ferat_exp_lits_in_qbf_clause, hm]
    by_cases hin : Q.contains (VAR2LIT m.qbf_var (LITSIGNBIT e))
    · rw [if_pos hin]
      refine ⟨⟨fun h => ?_, fun h => ?_⟩, ih_ne⟩
      · intro e' he' m' hm'
        rcases List.mem_cons.mp he' with h' | h'
        · subst h'
          rw [hm] at hm'
          cases hm'
          exact list_contains_iff.mp hin
        · exact ih_iff.mp h e' h' m' hm'
      · exact ih_iff.mpr (fun e' he' m' hm' => h e' (List.mem_cons_of_mem e he') m' hm')
    · rw [if_neg hin]
      refine ⟨⟨fun h => absurd h (by simp), fun h => ?_⟩, by simp⟩
      exact absurd (list_contains_iff.mpr (h e (List.mem_cons_self e rest) m hm)) hin

/-- C1: for every QBF clause `Q` and expansion clause `E` all of whose
literals' variables have mapping records, `ferat_test_expansion_origin_in_QBF`
returns `true` iff (a) every expansion literal's translated literal
`VAR2LIT (qbf_var e) (sign_bit e)` occurs in `Q`, and (b) `|E|` equals the
number of literals of `Q` whose variable is existentially quantified or free
(unbound) in the prefix; universal literals of `Q` impose no further
condition. -/
theorem c1_exist_test_iff (Q E : List Literal) (qbf : QBF) (expansion : Expansion)
    (hmap : ∀ e ∈ E, (List.lookup (LIT2VAR e) expansion.exp_var_mappings).isSome) :
    ferat_test_expansion_origin_in_QBF Q E qbf expansion = some true ↔
      (ExpLitsTranslated Q E expansion ∧
        E.length = (Q.filter (fun lit =>
          match List.lookup (LIT2VAR lit) qbf.prefix_mapping with
          | some quant => quant.type == QuantType.existential
          | none => true)).length) := by
  obtain ⟨hiff, hne⟩ := ferat_exp_lits_in_qbf_clause_spec Q expansion E hmap
  have hcount : num_exist_qbf_lits qbf Q = (Q.filter (fun lit =>
      match List.lookup (LIT2VAR lit) qbf.prefix_mapping with
      | some quant => quant.type == QuantType.existential
      | none => true)).length := by
    rw [num_exist_qbf_lits, List.countP_eq_length_filter]
  rw [ferat_test_expansion_origin_in_QBF]
  rcases hval : ferat_exp_lits_in_qbf_clause Q expansion E with _ | b
  · exact absurd hval hne
  · rcases b with _ | _
    · constructor
      · intro h
        exact absurd h (by simp)
      · intro ⟨h, _⟩
        have hcontra := hiff.mpr h
        rw [hval] at hcontra
        exact absurd hcontra (by simp)
    · simp only [Option.some.injEq, beq_iff_eq]
      rw [← hcount]
      constructor
      · intro h
        exact ⟨hiff.mp hval, h⟩
      · intro ⟨_, h⟩
        exact h

/-- Witness for C1 at a concrete input: prefix `∀ u . ∃ x`, QBF clause
`(u ∨ x)`, expansion clause `(e₃)` with `e₃ ↦ x`. -/
theorem c1_exist_test_iff_witness :
    (∀ e ∈ [6], (List.lookup (LIT2VAR e)
        [(3, ({ qbf_var := 2, exp_var := 3, annot := [3] } : ExpVarMapping))]).isSome) ∧
    (ferat_test_expansion_origin_in_QBF [2, 4] [6]
        { pre := [⟨QuantType.universal, 0, [1]⟩, ⟨QuantType.existential, 1, [2]⟩],
          matrix := [[2, 4]],
          prefix_mapping := [(1, ⟨QuantType.universal, 0, [1]⟩),
                             (2, ⟨QuantType.existential, 1, [2]⟩)] }
        { exp_var_mappings :=
            [(3, { qbf_var := 2, exp_var := 3, annot := [3] })],
          clause_origins := none } = some true ↔
      (ExpLitsTranslated [2, 4] [6]
          { exp_var_mappings :=
              [(3, { qbf_var := 2, exp_var := 3, annot := [3] })],
            clause_origins := none } ∧
        List.length [6] = (List.filter (fun lit =>
          match List.lookup (LIT2VAR lit)
            [(1, (⟨QuantType.universal, 0, [1]⟩ : Quantifier)),
             (2, (⟨QuantType.existential, 1, [2]⟩ : Quantifier))] with
          | some quant => quant.type == QuantType.existential
          | none => true) [2, 4]).length)) :=
  ⟨by decide, c1_exist_test_iff [2, 4] [6] _ _ (by decide)⟩

/-! ## Byte-stream parser primitives (parsing.c)

The parser state keeps only what the lexical primitives read and write: the
lookahead byte `la`, the unread remainder of the stream `rest`, and the EOF
flag.  Line/column tracking and the previous character are warning/diagnostic
state and are not modelled. -/

structure Parser where
  la : Nat
  rest : List Nat
  eof : Bool
deriving DecidableEq, Repr

/-- `read_one_char` from parsing.c: reads one byte into `la`; at the end of
the stream `gzread` leaves `la` unchanged and `gzeof` raises the EOF flag. -/
def read_one_char (p : Parser) : Parser :=
  match p.rest with
  | [] => { p with eof := true }
  | c :: rest => { la := c, rest := rest, eof := false }

/-- The whitespace set of `skip_white`: space, tab, v-tab, carriage return. -/
def is_white (c : Nat) : Bool :=
  c == 32 || c == 9 || c == 11 || c == 13

theorem read_one_char_measure (p : Parser) :
    (read_one_char p).rest.length + (if (read_one_char p).eof then 0 else 1) ≤
      p.rest.length := by
  rcases p with ⟨la, rest, eof⟩
  cases rest with
  | nil => simp [read_one_char]
  | cons c r => simp [read_one_char]

/-- `skip_white` from parsing.c: consume non-newline whitespace; the loop
breaks when EOF is reached with a whitespace lookahead. -/
def skip_white (p : Parser) : Parser :=
  if is_white p.la then
    if p.eof then p else skip_white (read_one_char p)
  else p
termination_by p.rest.length + (if p.eof then 0 else 1)
decreasing_by
  rename_i hw heof
  have h := read_one_char_measure p
  simp only [Bool.not_eq_true] at heof
  simp [heof]
  omega

/-- The digit-accumulation loop of `expect_number` (parsing.c lines 141-156):
the `uint32_t` accumulator wraps modulo `2 ^ 32`; any non-digit byte exits the
loop without being consumed. -/
def read_digits (p : Parser) (num : Nat) : Parser × Nat :=
  if p.eof then (p, num)
  else if 48 ≤ p.la ∧ p.la ≤ 57 then
    read_digits (read_one_char p) ((num * 10 + (p.la - 48)) % 2 ^ 32)
  else (p, num)
termination_by p.rest.length + (if p.eof then 0 else 1)
decreasing_by
  rename_i heof hdig
  have h := read_one_char_measure p
  simp only [Bool.not_eq_true] at heof
  simp [heof]
  omega

/-- `expect_number` from parsing.c: skip whitespace, handle an optional `-`
(fatal via `none` when `expect_positive`), then read digits.  The character
`-` is byte 45. -/
def expect_number (p0 : Parser) (expect_positive : Bool) : Option (Int × Parser) :=
  let p := skip_white p0
  if p.la == 45 then
    if expect_positive then none
    else
      let pr := read_digits (read_one_char p) 0
      some (-(pr.2 : Int), pr.1)
  else
    let pr := read_digits p 0
    some ((pr.2 : Int), pr.1)

/-- `expect_number_literal` from parsing.c: read a number with
`expect_positive = false` and fail fatally (`none`) unless it equals the given
literal. -/
def expect_number_literal (p : Parser) (lit : Int) : Option (Int × Parser) :=
  match expect_number p false with
  | none => none
  | some (num, p') => if num ≠ lit then none else some (num, p')

/-! ### C10: `expect_number` failure and missing-token behaviour -/

/-- C10: `expect_number` terminates fatally exactly when `expect_positive`
holds and the first non-whitespace byte is `-`; when that byte is neither `-`
nor an ASCII digit it consumes nothing beyond the whitespace and returns `0`,
so `expect_number_literal` with literal `0` (the required `0` terminator of
the QBF header) accepts an entirely absent token. -/
theorem c10_expect_number (p : Parser) (ep : Bool) :
    (expect_number p ep = none ↔ (ep = true ∧ (skip_white p).la = 45)) ∧
    ((skip_white p).la ≠ 45 → ¬(48 ≤ (skip_white p).la ∧ (skip_white p).la ≤ 57) →
      expect_number p ep = some (0, skip_white p) ∧
      expect_number_literal p 0 = some (0, skip_white p)) := by
  constructor
  · rw [expect_number]
    by_cases h45 : (skip_white p).la = 45
    · cases ep with
      | true => simp [h45]
      | false => simp [h45]
    · have hbeq : ((skip_white p).la == 45) = false := by simp [h45]
      simp [hbeq, h45]
  · intro h45 hdig
    have hdigits : read_digits (skip_white p) 0 = (skip_white p, 0) := by
      unfold read_digits
      by_cases h : (skip_white p).eof = true
      · simp [h]
      · rw [if_neg h, if_neg hdig]
    have hbeq : ((skip_white p).la == 45) = false := by simp [h45]
    constructor
    · rw [expect_number]
      simp [hbeq, hdigits]
    · rw [expect_number_literal, expect_number]
      simp [hbeq, hdigits]

/-- Witness for C10: on the stream consisting of the single byte `\n` (the
token is entirely absent), with a space lookahead. -/
theorem c10_expect_number_witness :
    ((expect_number ⟨32, [10], false⟩ true = none ↔
      (true = true ∧ (skip_white ⟨32, [10], false⟩).la = 45)) ∧
    ((skip_white ⟨32, [10], false⟩).la ≠ 45 →
      ¬(48 ≤ (skip_white ⟨32, [10], false⟩).la ∧
        (skip_white ⟨32, [10], false⟩).la ≤ 57) →
      expect_number ⟨32, [10], false⟩ true = some (0, skip_white ⟨32, [10], false⟩) ∧
      expect_number_literal ⟨32, [10], false⟩ 0 =
        some (0, skip_white ⟨32, [10], false⟩))) :=
  c10_expect_number ⟨32, [10], false⟩ true

/-! ## Quantifier-line handling of `qbf_parse` (qbf.c, PARSE_STATE_QUANTIFIER)

The dedup loop of the quantifier case reads `quantifier_variables` at index
`i`, which the duplicate branch does **not** advance; the duplicate branch
only decrements `quantifier->num_vars` and breaks out of the loop when that
counter reaches `0`.  The hash-table membership test `ht_get(...).ok` is
modelled by membership of the variable in the list of registered prefix keys
(`bound`). -/

/-- Result of processing one quantifier line's variable loop: the final
`quantifier->num_vars`, the filled slots of `quantifier->variables`, the keys
registered in `qbf->prefix_mapping`, and `qbf->max_var`. -/
structure QuantLoopResult where
  num_vars : Nat
  slots : List Variable
  bound : List Variable
  max_var : Nat
deriving DecidableEq, Repr

/-- The `for (i = 0; i < quantifier_variables->size;)` loop of the
PARSE_STATE_QUANTIFIER case (part_002 lines 722-740), translated verbatim:
index `i` advances only in the non-duplicate branch. -/
def qbf_parse_quant_vars (qvars : List Variable) (i num_vars : Nat)
    (slots bound : List Variable) (max_var : Nat) : QuantLoopResult :=
  if h : i < qvars.length then
    let qbf_var := qvars.get ⟨i, h⟩
    if bound.contains qbf_var then
      -- parse_warning "Found duplicate variable %u in prefix ..."
      if num_vars - 1 = 0 then ⟨0, slots, bound, max_var⟩
      else qbf_parse_quant_vars qvars i (num_vars - 1) slots bound max_var
    else
      qbf_parse_quant_vars qvars (i + 1) num_vars (slots ++ [qbf_var])
        (bound ++ [qbf_var])
        (if qbf_var > max_var then qbf_var else max_var)
  else ⟨num_vars, slots, bound, max_var⟩
termination_by (qvars.length - i) + num_vars
decreasing_by
  · omega
  · omega

/-- The whole PARSE_STATE_QUANTIFIER case for one `e`/`a` line (part_002 lines
703-760): run the variable loop with `num_vars` initialised to the list
length, then discard the quantifier when `num_vars` ended at `0`, otherwise
append it to the prefix. -/
def qbf_parse_quantifier_line (pre : List Quantifier) (bound : List Variable)
    (max_var quantifier_index : Nat) (is_existential : Bool)
    (qvars : List Variable) : List Quantifier × List Variable × Nat :=
  let r := qbf_parse_quant_vars qvars 0 qvars.length [] bound max_var
  if r.num_vars = 0 then
    -- free(quantifier): the block is discarded
    (pre, r.bound, r.max_var)
  else
    (pre ++ [⟨if is_existential then QuantType.existential else QuantType.universal,
              quantifier_index, r.slots⟩], r.bound, r.max_var)

/-! ### C6: duplicate handling in quantifier lines (code bug)

Claimed behaviour: each duplicate is skipped individually and the remaining
fresh variables are still added; the block is discarded only when every
variable is a duplicate.  Actual behaviour: the duplicate branch never
advances the read index, so a single duplicate drains `num_vars` to `0`,
breaks the loop, and discards the entire block while the fresh variables seen
before the duplicate stay registered in the prefix index. -/

/-- C6 (code bug demonstration): on the line `e 5 3 0` with variable `3`
already bound, the code discards the whole block (`num_vars` ends at `0` and
the prefix is unchanged) even though variable `5` is fresh and was registered
in the prefix index — contradicting the claim that only all-duplicate blocks
are discarded. -/
theorem c6_quant_line_bug :
    qbf_parse_quantifier_line [] [3] 3 0 true [5, 3] = ([], [3, 5], 5) ∧
    (qbf_parse_quant_vars [5, 3] 0 2 [] [3] 3).num_vars = 0 ∧
    (qbf_parse_quant_vars [5, 3] 0 2 [] [3] 3).slots = [5] := by
  have h : qbf_parse_quant_vars [5, 3] 0 2 [] [3] 3 = ⟨0, [5], [3, 5], 5⟩ := by
    rw [qbf_parse_quant_vars]
    norm_num
    rw [qbf_parse_quant_vars]
    norm_num
    rw [qbf_parse_quant_vars]
    norm_num
  refine ⟨?_, by rw [h], by rw [h]⟩
  rw [qbf_parse_quantifier_line]
  simp [h]

/-! ## Sorted array-list operations (arraylist.c)

The checker keeps the `U`/`V` literal sets as sorted array lists, maintained
with `allit_insert_sorted` and queried with `allit_binary_search_contains`.
These are translated here together with the correctness lemmas the
annotation-test proofs need: on sorted lists, binary search decides
membership. -/

/-- `allit_insert_sorted` from arraylist.c: skip while `element > array[i]`,
then insert at position `i`. -/
def allit_insert_sorted : List Literal → Literal → List Literal
  | [], x => [x]
  | a :: rest, x =>
    if x > a then a :: allit_insert_sorted rest x else x :: a :: rest

theorem allit_insert_sorted_perm (l : List Literal) (x : Literal) :
    (allit_insert_sorted l x).Perm (x :: l) := by
  induction l with
  | nil => exact List.Perm.refl _
  | cons a rest ih =>
    rw [allit_insert_sorted]
    by_cases h : x > a
    · rw [if_pos h]
      exact (ih.cons a).trans (List.Perm.swap x a rest)
    · rw [if_neg h]

theorem allit_insert_sorted_sorted (l : List Literal) (x : Literal)
    (hs : l.Pairwise (· ≤ ·)) :
    (allit_insert_sorted l x).Pairwise (· ≤ ·) := by
  induction l with
  | nil => simp [allit_insert_sorted]
  | cons a rest ih =>
    rw [allit_insert_sorted]
    rw [List.pairwise_cons] at hs
    by_cases h : x > a
    · rw [if_pos h]
      rw [List.pairwise_cons]
      refine ⟨?_, ih hs.2⟩
      intro b hb
      have hmem := (allit_insert_sorted_perm rest x).mem_iff.mp hb
      rcases List.mem_cons.mp hmem with h' | h'
      · subst h'
        exact Nat.le_of_lt h
      · exact hs.1 b h'
    · rw [if_neg h]
      rw [List.pairwise_cons]
      refine ⟨?_, List.pairwise_cons.mpr hs⟩
      intro b hb
      have hxa : x ≤ a := Nat.le_of_not_lt h
      rcases List.mem_cons.mp hb with h' | h'
      · subst h'
        exact hxa
      · exact Nat.le_trans hxa (hs.1 b h')

/-- Sorted lists are monotone under `getD` access. -/
theorem pairwise_getD_le {l : List Nat} (hs : l.Pairwise (· ≤ ·))
    {i j : Nat} (hj : j < l.length) (hij : i ≤ j) :
    l.getD i 0 ≤ l.getD j 0 := by
  rcases Nat.eq_or_lt_of_le hij with h | h
  · subst h
    exact Nat.le_refl _
  · have hi : i < l.length := Nat.lt_trans h hj
    rw [List.getD_eq_getElem l 0 hi, List.getD_eq_getElem l 0 hj]
    exact List.pairwise_iff_getElem.mp hs i j hi hj h

/-- The binary-search loop of `_binary_search_index` from arraylist.c: the C
`while (high >= low)` loop with the `mid == 0` underflow break.  The loop
locals `mid = low + (high - low) / 2` and `other = array[mid]` are inlined. -/
def allit_bsearch_go (l : List Literal) (x : Literal) (low high : Nat) : Int :=
  if low ≤ high then
    if x = l.getD (low + (high - low) / 2) 0 then
      ((low + (high - low) / 2 : Nat) : Int)
    else if x > l.getD (low + (high - low) / 2) 0 then
      allit_bsearch_go l x (low + (high - low) / 2 + 1) high
    else if low + (high - low) / 2 = 0 then -1
    else allit_bsearch_go l x low (low + (high - low) / 2 - 1)
  else -1
termination_by high + 1 - low
decreasing_by
  · omega
  · omega

/-- `allit_binary_search_index` from arraylist.c. -/
def allit_binary_search_index (l : List Literal) (x : Literal) : Int :=
  if l.length < 1 then -1
  else allit_bsearch_go l x 0 (l.length - 1)

/-- `allit_binary_search_contains` from arraylist.c. -/
def allit_binary_search_contains (l : List Literal) (x : Literal) : Bool :=
  allit_binary_search_index l x != -1

theorem allit_bsearch_go_sound (l : List Nat) (x : Nat) :
    ∀ (n low high : Nat), high + 1 - low ≤ n → high < l.length →
      allit_bsearch_go l x low high = -1 ∨
        ∃ i : Nat, allit_bsearch_go l x low high = (i : Int) ∧
          i < l.length ∧ l.getD i 0 = x := by
  intro n
  induction n with
  | zero =>
    intro low high hm hh
    rw [allit_bsearch_go, if_neg (by omega)]
    exact Or.inl rfl
  | succ n ih =>
    intro low high hm hh
    rw [allit_bsearch_go]
    by_cases hlh : low ≤ high
    · rw [if_pos hlh]
      by_cases heq : x = l.getD (low + (high - low) / 2) 0
      · rw [if_pos heq]
        exact Or.inr ⟨low + (high - low) / 2, rfl, by omega, heq.symm⟩
      · rw [if_neg heq]
        by_cases hgt : x > l.getD (low + (high - low) / 2) 0
        · rw [if_pos hgt]
          exact ih (low + (high - low) / 2 + 1) high (by omega) hh
        · rw [if_neg hgt]
          by_cases hz : low + (high - low) / 2 = 0
          · rw [if_pos hz]
            exact Or.inl rfl
          · rw [if_neg hz]
            exact ih low (low + (high - low) / 2 - 1) (by omega) (by omega)
    · rw [if_neg hlh]
      exact Or.inl rfl

theorem allit_bsearch_go_complete (l : List Nat) (x : Nat)
    (hs : l.Pairwise (· ≤ ·)) :
    ∀ (n low high : Nat), high + 1 - low ≤ n → high < l.length →
      (∃ k, low ≤ k ∧ k ≤ high ∧ l.getD k 0 = x) →
      allit_bsearch_go l x low high ≠ -1 := by
  intro n
  induction n with
  | zero =>
    intro low high hm hh hex
    obtain ⟨k, hk1, hk2, _⟩ := hex
    omega
  | succ n ih =>
    intro low high hm hh hex
    obtain ⟨k, hk1, hk2, hkx⟩ := hex
    have hlh : low ≤ high := Nat.le_trans hk1 hk2
    rw [allit_bsearch_go, if_pos hlh]
    by_cases heq : x = l.getD (low + (high - low) / 2) 0
    · rw [if_pos heq]
      omega
    · rw [if_neg heq]
      by_cases hgt : x > l.getD (low + (high - low) / 2) 0
      · rw [if_pos hgt]
        refine ih (low + (high - low) / 2 + 1) high (by omega) hh ⟨k, ?_, hk2, hkx⟩
        by_contra hcon
        have hkm : k ≤ low + (high - low) / 2 := by omega
        have hmono := @pairwise_getD_le _ hs k (low + (high - low) / 2)
          (by omega) hkm
        omega
      · rw [if_neg hgt]
        have hxlt : x < l.getD (low + (high - low) / 2) 0 := by omega
        have hklt : k < low + (high - low) / 2 := by
          by_contra hcon
          have hmono := @pairwise_getD_le _ hs (low + (high - low) / 2) k
            (by omega) (by omega)
          omega
        by_cases hz : low + (high - low) / 2 = 0
        · rw [if_pos hz]
          omega
        · rw [if_neg hz]
          exact ih low (low + (high - low) / 2 - 1) (by omega) (by omega)
            ⟨k, hk1, by omega, hkx⟩

/-- `allit_binary_search_index` either reports absence (`-1`) or an in-bounds
position holding the searched element. -/
theorem allit_binary_search_index_cases (l : List Nat) (x : Nat) :
    allit_binary_search_index l x = -1 ∨
      ∃ i : Nat, allit_binary_search_index l x = (i : Int) ∧
        i < l.length ∧ l.getD i 0 = x := by
  rw [allit_binary_search_index]
  by_cases hl : l.length < 1
  · rw [if_pos hl]
    exact Or.inl rfl
  · rw [if_neg hl]
    exact allit_bsearch_go_sound l x (l.length - 1 + 1) 0 (l.length - 1)
      (by omega) (by omega)

theorem allit_binary_search_index_sound (l : List Nat) (x : Nat)
    (i : Nat) (h : allit_binary_search_index l x = (i : Int)) :
    i < l.length ∧ l.getD i 0 = x := by
  rcases allit_binary_search_index_cases l x with h' | ⟨j, hj, hjl, hjx⟩
  · rw [h'] at h
    omega
  · rw [hj] at h
    have : j = i := by omega
    subst this
    exact ⟨hjl, hjx⟩

/-- On a sorted list, binary-search containment coincides with membership. -/
theorem allit_binary_search_contains_iff (l : List Nat) (x : Nat)
    (hs : l.Pairwise (· ≤ ·)) :
    allit_binary_search_contains l x = true ↔ x ∈ l := by
  rw [allit_binary_search_contains]
  constructor
  · intro h
    have hne : allit_binary_search_index l x ≠ -1 := by simpa using h
    rcases allit_binary_search_index_cases l x with h' | ⟨i, _, hlt, hget⟩
    · exact absurd h' hne
    · rw [← hget, List.getD_eq_getElem l 0 hlt]
      exact List.getElem_mem hlt
  · intro h
    obtain ⟨k, hk, hkx⟩ := List.mem_iff_getElem.mp h
    have hne : allit_binary_search_index l x ≠ -1 := by
      rw [allit_binary_search_index, if_neg (by omega)]
      refine allit_bsearch_go_complete l x hs (l.length - 1 + 1) 0 (l.length - 1)
        (by omega) (by omega) ⟨k, by omega, by omega, ?_⟩
      rw [List.getD_eq_getElem l 0 hk]
      exact hkx
    simpa using hne

/-- The removal loop of the annotation test (check.c lines 250-256):
`while ((idx = allit_binary_search_index(*V, lit)) >= 0) allit_remove(*V, idx);`
removes every occurrence of `lit` from `V`. -/
def allit_remove_all (V : List Literal) (x : Literal) : List Literal :=
  match h : allit_binary_search_index V x with
  | Int.negSucc _ => V
  | Int.ofNat idx => allit_remove_all (V.eraseIdx idx) x
termination_by V.length
decreasing_by
  have hb := allit_binary_search_index_sound V x idx h
  rw [List.length_eraseIdx_of_lt hb.1]
  omega

theorem filter_eraseIdx_eq (V : List Nat) (x : Nat) :
    ∀ idx, idx < V.length → V.getD idx 0 = x →
      (V.eraseIdx idx).filter (fun y => y != x) = V.filter (fun y => y != x) := by
  induction V with
  | nil =>
    intro idx h _
    simp at h
  | cons a t ih =>
    intro idx h hx
    cases idx with
    | zero =>
      have ha : a = x := hx
      subst ha
      simp [List.eraseIdx, List.filter]
    | succ j =>
      have hj : j < t.length := by simpa using h
      have hxj : t.getD j 0 = x := hx
      simp only [List.eraseIdx, List.filter]
      rw [ih j hj hxj]

/-- On a sorted list, the checker's removal loop computes exactly the filter
dropping every occurrence of the removed literal. -/
theorem allit_remove_all_eq_filter (x : Nat) :
    ∀ (n : Nat) (V : List Nat), V.length ≤ n → V.Pairwise (· ≤ ·) →
      allit_remove_all V x = V.filter (fun y => y != x) := by
  intro n
  induction n with
  | zero =>
    intro V hl hs
    have hV : V = [] := List.length_eq_zero.mp (by omega)
    subst hV
    rw [allit_remove_all]
    split
    · rfl
    · rename_i idx hidx
      exfalso
      have hempty : allit_binary_search_index [] x = -1 := rfl
      rw [hempty] at hidx
      exact Int.noConfusion hidx
  | succ n ih =>
    intro V hl hs
    rw [allit_remove_all]
    split
    · rename_i k h
      have hnotin : x ∉ V := by
        intro hmem
        have hcontain := (allit_binary_search_contains_iff V x hs).mpr hmem
        rw [allit_binary_search_contains] at hcontain
        rcases allit_binary_search_index_cases V x with hcase | ⟨j, hj, _, _⟩
        · rw [hcase] at hcontain
          simp at hcontain
        · rw [h] at hj
          exact Int.noConfusion hj
      rw [List.filter_eq_self.mpr]
      intro y hy
      have : y ≠ x := by
        intro hc
        subst hc
        exact hnotin hy
      simpa using this
    · rename_i idx h
      have hb := allit_binary_search_index_sound V x idx h
      have hlen : (V.eraseIdx idx).length ≤ n := by
        rw [List.length_eraseIdx_of_lt hb.1]
        omega
      have hsorted : (V.eraseIdx idx).Pairwise (· ≤ ·) :=
        hs.sublist (List.eraseIdx_sublist V idx)
      rw [ih (V.eraseIdx idx) hlen hsorted,
        filter_eraseIdx_eq V x idx hb.1 hb.2]

/-! ## Annotation test (check.c, `ferat_check_annotations_against_expansion`)

The test walks the expansion clause in order; for each literal bound in the
prefix it first scans the universal blocks between the previous binding index
and the current one, inserting into the sorted sets `U` (negation of the
first occurrence in the QBF clause of each universal variable occurring
there) and `V` (both polarities of the universal variables not occurring in
the clause), then checks the annotation length and the subset property, and
finally removes the negations of the annotation literals from `V`. -/

/-- One universal variable of the block scan (check.c lines 214-230): bump
`num_universal_vars_so_far`; if the variable occurs in the QBF clause insert
the negation of its first occurrence into `U`, otherwise insert both
polarities into `V`. -/
def ferat_annot_scan_var (qbf_clause : List Literal)
    (st : List Literal × List Literal × Nat) (quant_qbf_var : Variable) :
    List Literal × List Literal × Nat :=
  match qbf_clause.find? (fun lit => LIT2VAR lit == quant_qbf_var) with
  | some lit => (allit_insert_sorted st.1 (LIT_NEG lit), st.2.1, st.2.2 + 1)
  | none =>
    (st.1,
     allit_insert_sorted (allit_insert_sorted st.2.1 (VAR2LIT quant_qbf_var 0))
       (VAR2LIT quant_qbf_var 1),
     st.2.2 + 1)

/-- One prefix block of the scan (check.c lines 206-231): non-universal
blocks are skipped. -/
def ferat_annot_scan_block (qbf_clause : List Literal)
    (st : List Literal × List Literal × Nat) (quant : Quantifier) :
    List Literal × List Literal × Nat :=
  if quant.type != QuantType.universal then st
  else quant.vars.foldl (ferat_annot_scan_var qbf_clause) st

/-- The `for (j = last_quant_idx; j < curr_quant_idx; ++j)` scan over
`qbf->prefix`: the blocks at positions `last ≤ j < curr`.  (The C `alptr_get`
bound assertions hold whenever those positions exist; the list segment below
is exactly those blocks.) -/
def ferat_annot_scan (qbf : QBF) (qbf_clause : List Literal)
    (st : List Literal × List Literal × Nat) (last curr : Nat) :
    List Literal × List Literal × Nat :=
  ((qbf.pre.drop last).take (curr - last)).foldl
    (ferat_annot_scan_block qbf_clause) st

/-- The main loop of `ferat_check_annotations_against_expansion` (check.c
lines 183-258), with state `U`, `V`, `last_quant_idx`,
`num_universal_vars_so_far`.  `none` models the `assert(result.ok)` failure
on a missing variable mapping. -/
def ferat_annot_loop (qbf : QBF) (qbf_clause : List Literal)
    (expansion : Expansion) :
    List Literal → List Literal → List Literal → Nat → Nat → Option Bool
  | [], U, V, last, num => some true
  | exp_lit :: rest, U, V, last, num =>
    match List.lookup (LIT2VAR exp_lit) expansion.exp_var_mappings with
    | none => none
    | some m =>
      match List.lookup m.qbf_var qbf.prefix_mapping with
      | none =>
        -- free variable: the annotation must be empty
        if m.annot.length != 0 then some false
        else ferat_annot_loop qbf qbf_clause expansion rest U V last num
      | some quant =>
        match ferat_annot_scan qbf qbf_clause (U, V, num) last quant.ordering with
        | (U', V', num') =>
          if m.annot.length != num' then some false
          else if m.annot.all (fun a =>
              allit_binary_search_contains V' a ||
              allit_binary_search_contains U' a) then
            ferat_annot_loop qbf qbf_clause expansion rest U'
              (m.annot.foldl (fun W a => allit_remove_all W (LIT_NEG a)) V')
              quant.ordering num'
          else some false

/-- `ferat_check_annotations_against_expansion` from check.c: the reused `U`
and `V` sets are cleared on entry (`size ← 0`), `last_quant_idx` and
`num_universal_vars_so_far` start at `0`. -/
def ferat_check_annotations_against_expansion (qbf_clause exp_clause : List Literal)
    (qbf : QBF) (expansion : Expansion) : Option Bool :=
  ferat_annot_loop qbf qbf_clause expansion exp_clause [] [] 0 0

/-! ### Claim-side description of the annotation test (spec 4.4.b / C2) -/

/-- Number of universal variables in a list of prefix blocks. -/
def universal_var_count (blocks : List Quantifier) : Nat :=
  (blocks.map (fun quant =>
    if quant.type = QuantType.universal then quant.vars.length else 0)).sum

/-- Per-variable `U` contribution, amended reading: the negation of the
*first* literal of the QBF clause whose variable is the given universal
variable (when it occurs at all). -/
def claim_U_vars_first (Q : List Literal) (vs : List Variable) : List Literal :=
  vs.filterMap (fun v => (Q.find? (fun lit => LIT2VAR lit == v)).map LIT_NEG)

/-- Per-variable `U` contribution, the claim as stated: the negation of
*every* literal of the QBF clause whose variable is the given universal
variable. -/
def claim_U_vars_all (Q : List Literal) (vs : List Variable) : List Literal :=
  vs.flatMap (fun v => (Q.filter (fun lit => LIT2VAR lit == v)).map LIT_NEG)

/-- Per-variable `V` contribution: both polarities of each universal
variable not occurring in the QBF clause. -/
def claim_V_vars (Q : List Literal) (vs : List Variable) : List Literal :=
  vs.flatMap (fun v =>
    if Q.any (fun lit => LIT2VAR lit == v) then []
    else [VAR2LIT v 0, VAR2LIT v 1])

/-- `U` contributions of a list of prefix blocks (amended: first
occurrence). -/
def claim_U_adds_first (Q : List Literal) (blocks : List Quantifier) : List Literal :=
  blocks.flatMap (fun quant =>
    if quant.type = QuantType.universal then claim_U_vars_first Q quant.vars
    else [])

/-- `U` contributions of a list of prefix blocks (the claim as stated: every
occurrence). -/
def claim_U_adds_all (Q : List Literal) (blocks : List Quantifier) : List Literal :=
  blocks.flatMap (fun quant =>
    if quant.type = QuantType.universal then claim_U_vars_all Q quant.vars
    else [])

/-- `V` contributions of a list of prefix blocks. -/
def claim_V_adds (Q : List Literal) (blocks : List Quantifier) : List Literal :=
  blocks.flatMap (fun quant =>
    if quant.type = QuantType.universal then claim_V_vars Q quant.vars
    else [])

/-- The annotation admissibility property in the words of the claim
(amended reading), processing the expansion clause in order: bound literals
must carry an annotation whose length is the number of universal variables in
prefix blocks strictly before the binding quantifier and whose literals all
lie in `U ∪ V`, where `U` holds, for each universal variable occurring in the
QBF clause, the negation of its first occurrence, and `V` holds both
polarities of the universal variables not occurring in the clause; after each
subset check the negations of the annotation literals are removed from `V`;
free literals must carry an empty annotation. -/
def claim_annot_spec_first (qbf : QBF) (Q : List Literal)
    (expansion : Expansion) : List Literal → List Literal → Nat → Bool
  | [], V, last => true
  | e :: rest, V, last =>
    match List.lookup (LIT2VAR e) expansion.exp_var_mappings with
    | none => false
    | some m =>
      match List.lookup m.qbf_var qbf.prefix_mapping with
      | none => m.annot.isEmpty &&
          claim_annot_spec_first qbf Q expansion rest V last
      | some quant =>
        (m.annot.length == universal_var_count (qbf.pre.take quant.ordering)) &&
        (m.annot.all (fun a =>
          (claim_U_adds_first Q (qbf.pre.take quant.ordering)).contains a ||
          (V ++ claim_V_adds Q
            ((qbf.pre.drop last).take (quant.ordering - last))).contains a)) &&
        claim_annot_spec_first qbf Q expansion rest
          (m.annot.foldl (fun W a => W.filter (fun y => y != LIT_NEG a))
            (V ++ claim_V_adds Q
              ((qbf.pre.drop last).take (quant.ordering - last))))
          quant.ordering

/-- The annotation admissibility property exactly as the C2 claim states it:
as `claim_annot_spec_first`, but `U` holds the negation of *every* literal of
the QBF clause whose universal variable occurs in it. -/
def claim_annot_spec_claimed (qbf : QBF) (Q : List Literal)
    (expansion : Expansion) : List Literal → List Literal → Nat → Bool
  | [], V, last => true
  | e :: rest, V, last =>
    match List.lookup (LIT2VAR e) expansion.exp_var_mappings with
    | none => false
    | some m =>
      match List.lookup m.qbf_var qbf.prefix_mapping with
      | none => m.annot.isEmpty &&
          claim_annot_spec_claimed qbf Q expansion rest V last
      | some quant =>
        (m.annot.length == universal_var_count (qbf.pre.take quant.ordering)) &&
        (m.annot.all (fun a =>
          (claim_U_adds_all Q (qbf.pre.take quant.ordering)).contains a ||
          (V ++ claim_V_adds Q
            ((qbf.pre.drop last).take (quant.ordering - last))).contains a)) &&
        claim_annot_spec_claimed qbf Q expansion rest
          (m.annot.foldl (fun W a => W.filter (fun y => y != LIT_NEG a))
            (V ++ claim_V_adds Q
              ((qbf.pre.drop last).take (quant.ordering - last))))
          quant.ordering

/-- The quantifier ordering of an expansion literal's mapped QBF variable
(free variables order as `0`) — the sort projection the C2 claim's
"sorted by the quantifier ordering of their mapped QBF variables" refers
to. -/
def exp_lit_quant_ordering (qbf : QBF) (expansion : Expansion) (e : Literal) : Nat :=
  match List.lookup (LIT2VAR e) expansion.exp_var_mappings with
  | none => 0
  | some m =>
    match List.lookup m.qbf_var qbf.prefix_mapping with
    | none => 0
    | some quant => quant.ordering

/-! ### C2 proof infrastructure -/

theorem quanttype_bne_universal_false {t : QuantType} :
    ((t != QuantType.universal) = false) ↔ t = QuantType.universal := by
  cases t <;> decide

theorem quanttype_bne_universal_true {t : QuantType} :
    ((t != QuantType.universal) = true) ↔ t ≠ QuantType.universal := by
  cases t <;> decide

theorem universal_var_count_append (a b : List Quantifier) :
    universal_var_count (a ++ b) = universal_var_count a + universal_var_count b := by
  rw [universal_var_count, universal_var_count, universal_var_count,
    List.map_append, List.sum_append]

theorem claim_U_adds_first_append (Q : List Literal) (a b : List Quantifier) :
    claim_U_adds_first Q (a ++ b) =
      claim_U_adds_first Q a ++ claim_U_adds_first Q b := by
  rw [claim_U_adds_first, claim_U_adds_first, claim_U_adds_first,
    List.flatMap_append]

theorem claim_V_adds_append (Q : List Literal) (a b : List Quantifier) :
    claim_V_adds Q (a ++ b) = claim_V_adds Q a ++ claim_V_adds Q b := by
  rw [claim_V_adds, claim_V_adds, claim_V_adds, List.flatMap_append]

theorem ferat_annot_scan_vars_spec (Q : List Literal) :
    ∀ (vs : List Variable) (U V : List Literal) (num : Nat),
      U.Pairwise (· ≤ ·) → V.Pairwise (· ≤ ·) →
      (vs.foldl (ferat_annot_scan_var Q) (U, V, num)).2.2 = num + vs.length ∧
      (vs.foldl (ferat_annot_scan_var Q) (U, V, num)).1.Perm
        (U ++ claim_U_vars_first Q vs) ∧
      (vs.foldl (ferat_annot_scan_var Q) (U, V, num)).2.1.Perm
        (V ++ claim_V_vars Q vs) ∧
      (vs.foldl (ferat_annot_scan_var Q) (U, V, num)).1.Pairwise (· ≤ ·) ∧
      (vs.foldl (ferat_annot_scan_var Q) (U, V, num)).2.1.Pairwise (· ≤ ·) := by
  intro vs
  induction vs with
  | nil =>
    intro U V num hU hV
    simp [claim_U_vars_first, claim_V_vars, hU, hV]
  | cons v vs ih =>
    intro U V num hU hV
    rw [List.foldl_cons]
    rcases hfind : Q.find? (fun lit => LIT2VAR lit == v) with _ | lit
    · -- variable does not occur in the clause: both polarities go to V
      have hstep : ferat_annot_scan_var Q (U, V, num) v =
          (U, allit_insert_sorted (allit_insert_sorted V (VAR2LIT v 0))
            (VAR2LIT v 1), num + 1) := by
        simp only [ferat_annot_scan_var, hfind]
      rw [hstep]
      have hV2 : (allit_insert_sorted (allit_insert_sorted V (VAR2LIT v 0))
          (VAR2LIT v 1)).Pairwise (· ≤ ·) :=
        allit_insert_sorted_sorted _ _ (allit_insert_sorted_sorted V _ hV)
      obtain ⟨hnum, hUp, hVp, hUs, hVs⟩ := ih U
        (allit_insert_sorted (allit_insert_sorted V (VAR2LIT v 0)) (VAR2LIT v 1))
        (num + 1) hU hV2
      have hUcons : claim_U_vars_first Q (v :: vs) = claim_U_vars_first Q vs := by
        rw [claim_U_vars_first, claim_U_vars_first, List.filterMap_cons, hfind]
        simp
      have hVcons : claim_V_vars Q (v :: vs) =
          [VAR2LIT v 0, VAR2LIT v 1] ++ claim_V_vars Q vs := by
        rw [claim_V_vars, claim_V_vars, List.flatMap_cons]
        have hany : Q.any (fun lit => LIT2VAR lit == v) = false := by
          rw [List.any_eq_false]
          intro lit hlit hc
          exact List.find?_eq_none.mp hfind lit hlit hc
        rw [hany]
        simp
      refine ⟨by rw [hnum]; simp; omega, by rw [hUcons]; exact hUp, ?_, hUs, hVs⟩
      rw [hVcons, ← List.append_assoc]
      refine hVp.trans (List.Perm.append_right (claim_V_vars Q vs) ?_)
      have h1 : (allit_insert_sorted (allit_insert_sorted V (VAR2LIT v 0))
          (VAR2LIT v 1)).Perm (VAR2LIT v 1 :: VAR2LIT v 0 :: V) :=
        (allit_insert_sorted_perm _ _).trans
          ((allit_insert_sorted_perm V (VAR2LIT v 0)).cons _)
      refine h1.trans ?_
      refine (List.Perm.swap (VAR2LIT v 0) (VAR2LIT v 1) V).trans ?_
      exact (@List.perm_append_comm _ V [VAR2LIT v 0, VAR2LIT v 1]).symm
    · -- variable occurs: negation of the first occurrence goes to U
      have hstep : ferat_annot_scan_var Q (U, V, num) v =
          (allit_insert_sorted U (LIT_NEG lit), V, num + 1) := by
        simp only [ferat_annot_scan_var, hfind]
      rw [hstep]
      have hU1 : (allit_insert_sorted U (LIT_NEG lit)).Pairwise (· ≤ ·) :=
        allit_insert_sorted_sorted U _ hU
      obtain ⟨hnum, hUp, hVp, hUs, hVs⟩ := ih
        (allit_insert_sorted U (LIT_NEG lit)) V (num + 1) hU1 hV
      have hUcons : claim_U_vars_first Q (v :: vs) =
          LIT_NEG lit :: claim_U_vars_first Q vs := by
        rw [claim_U_vars_first, claim_U_vars_first, List.filterMap_cons, hfind]
        simp
      have hVcons : claim_V_vars Q (v :: vs) = claim_V_vars Q vs := by
        rw [claim_V_vars, claim_V_vars, List.flatMap_cons]
        have hany : Q.any (fun lit' => LIT2VAR lit' == v) = true := by
          have hp := List.find?_some hfind
          rw [List.any_eq_true]
          exact ⟨lit, List.mem_of_find?_eq_some hfind, hp⟩
        rw [hany]
        simp
      refine ⟨by rw [hnum]; simp; omega, ?_, by rw [hVcons]; exact hVp, hUs, hVs⟩
      rw [hUcons]
      refine hUp.trans ?_
      refine List.Perm.trans (List.Perm.append_right _
        (allit_insert_sorted_perm U (LIT_NEG lit))) ?_
      exact List.perm_middle.symm

theorem ferat_annot_scan_blocks_spec (Q : List Literal) :
    ∀ (bs : List Quantifier) (U V : List Literal) (num : Nat),
      U.Pairwise (· ≤ ·) → V.Pairwise (· ≤ ·) →
      (bs.foldl (ferat_annot_scan_block Q) (U, V, num)).2.2 =
        num + universal_var_count bs ∧
      (bs.foldl (ferat_annot_scan_block Q) (U, V, num)).1.Perm
        (U ++ claim_U_adds_first Q bs) ∧
      (bs.foldl (ferat_annot_scan_block Q) (U, V, num)).2.1.Perm
        (V ++ claim_V_adds Q bs) ∧
      (bs.foldl (ferat_annot_scan_block Q) (U, V, num)).1.Pairwise (· ≤ ·) ∧
      (bs.foldl (ferat_annot_scan_block Q) (U, V, num)).2.1.Pairwise (· ≤ ·) := by
  intro bs
  induction bs with
  | nil =>
    intro U V num hU hV
    simp [universal_var_count, claim_U_adds_first, claim_V_adds, hU, hV]
  | cons quant bs ih =>
    intro U V num hU hV
    rw [List.foldl_cons]
    have hcount : universal_var_count (quant :: bs) =
        (if quant.type = QuantType.universal then quant.vars.length else 0) +
          universal_var_count bs := by
      rw [universal_var_count, universal_var_count, List.map_cons, List.sum_cons]
    have hUcons : claim_U_adds_first Q (quant :: bs) =
        (if quant.type = QuantType.universal then claim_U_vars_first Q quant.vars
          else []) ++ claim_U_adds_first Q bs := by
      rw [claim_U_adds_first, claim_U_adds_first, List.flatMap_cons]
    have hVcons : claim_V_adds Q (quant :: bs) =
        (if quant.type = QuantType.universal then claim_V_vars Q quant.vars
          else []) ++ claim_V_adds Q bs := by
      rw [claim_V_adds, claim_V_adds, List.flatMap_cons]
    by_cases htype : quant.type = QuantType.universal
    · have hstep : ferat_annot_scan_block Q (U, V, num) quant =
          quant.vars.foldl (ferat_annot_scan_var Q) (U, V, num) := by
        rw [ferat_annot_scan_block,
          if_neg (by rw [quanttype_bne_universal_true]; simp [htype])]
      rw [hstep]
      obtain ⟨hnum1, hUp1, hVp1, hUs1, hVs1⟩ :=
        ferat_annot_scan_vars_spec Q quant.vars U V num hU hV
      rcases hfold : quant.vars.foldl (ferat_annot_scan_var Q) (U, V, num) with
        ⟨U1, V1, num1⟩
      rw [hfold] at hnum1 hUp1 hVp1 hUs1 hVs1
      dsimp only at hnum1 hUp1 hVp1 hUs1 hVs1
      obtain ⟨hnum2, hUp2, hVp2, hUs2, hVs2⟩ := ih U1 V1 num1 hUs1 hVs1
      refine ⟨?_, ?_, ?_, hUs2, hVs2⟩
      · rw [hnum2, hcount, if_pos htype]
        omega
      · rw [hUcons, if_pos htype, ← List.append_assoc]
        exact hUp2.trans (List.Perm.append_right _ hUp1)
      · rw [hVcons, if_pos htype, ← List.append_assoc]
        exact hVp2.trans (List.Perm.append_right _ hVp1)
    · have hstep : ferat_annot_scan_block Q (U, V, num) quant = (U, V, num) := by
        rw [ferat_annot_scan_block,
          if_pos (quanttype_bne_universal_true.mpr htype)]
      rw [hstep]
      obtain ⟨hnum2, hUp2, hVp2, hUs2, hVs2⟩ := ih U V num hU hV
      refine ⟨?_, ?_, ?_, hUs2, hVs2⟩
      · rw [hnum2, hcount, if_neg htype]
        omega
      · rw [hUcons, if_neg htype, List.nil_append]
        exact hUp2
      · rw [hVcons, if_neg htype, List.nil_append]
        exact hVp2

/-- The removal loop applied to all annotation literals, on a sorted list,
equals the corresponding filter fold, and stays sorted. -/
theorem remove_fold_eq_filter_fold :
    ∀ (as : List Literal) (V : List Literal), V.Pairwise (· ≤ ·) →
      as.foldl (fun W a => allit_remove_all W (LIT_NEG a)) V =
        as.foldl (fun W a => W.filter (fun y => y != LIT_NEG a)) V ∧
      (as.foldl (fun W a => W.filter (fun y => y != LIT_NEG a)) V).Pairwise
        (· ≤ ·) := by
  intro as
  induction as with
  | nil =>
    intro V hV
    exact ⟨rfl, hV⟩
  | cons a as ih =>
    intro V hV
    rw [List.foldl_cons, List.foldl_cons]
    have hstep : allit_remove_all V (LIT_NEG a) =
        V.filter (fun y => y != LIT_NEG a) :=
      allit_remove_all_eq_filter (LIT_NEG a) V.length V (Nat.le_refl _) hV
    rw [hstep]
    exact ih _ (hV.filter _)

/-- The filter fold over the annotation respects permutation of the start
list. -/
theorem filter_fold_perm (as : List Literal) :
    ∀ (V W : List Literal), V.Perm W →
      (as.foldl (fun X a => X.filter (fun y => y != LIT_NEG a)) V).Perm
        (as.foldl (fun X a => X.filter (fun y => y != LIT_NEG a)) W) := by
  induction as with
  | nil =>
    intro V W h
    exact h
  | cons a as ih =>
    intro V W h
    rw [List.foldl_cons, List.foldl_cons]
    exact ih _ _ (h.filter _)


theorem ferat_annot_loop_spec (qbf : QBF) (Q : List Literal)
    (expansion : Expansion) :
    ∀ (E : List Literal) (Uc Vc Vs : List Literal) (last : Nat),
      (∀ e ∈ E, (List.lookup (LIT2VAR e) expansion.exp_var_mappings).isSome) →
      E.Pairwise (fun a b => exp_lit_quant_ordering qbf expansion a ≤
        exp_lit_quant_ordering qbf expansion b) →
      (∀ e ∈ E, last ≤ exp_lit_quant_ordering qbf expansion e) →
      Uc.Pairwise (· ≤ ·) → Vc.Pairwise (· ≤ ·) →
      Uc.Perm (claim_U_adds_first Q (qbf.pre.take last)) →
      Vc.Perm Vs →
      ferat_annot_loop qbf Q expansion E Uc Vc last
          (universal_var_count (qbf.pre.take last)) =
        some (claim_annot_spec_first qbf Q expansion E Vs last) := by
  intro E
  induction E with
  | nil =>
    intro Uc Vc Vs last _ _ _ _ _ _ _
    rfl
  | cons e rest ih =>
    intro Uc Vc Vs last hmap hpair hord hUs hVs hUp hVp
    obtain ⟨m, hm⟩ := Option.isSome_iff_exists.mp
      (hmap e (List.mem_cons_self e rest))
    have hmaprest : ∀ e' ∈ rest,
        (List.lookup (LIT2VAR e') expansion.exp_var_mappings).isSome :=
      fun e' h => hmap e' (List.mem_cons_of_mem e h)
    rw [List.pairwise_cons] at hpair
    simp only [ferat_annot_loop, claim_annot_spec_first, hm]
    rcases hq : List.lookup m.qbf_var qbf.prefix_mapping with _ | quant
    · -- free variable: the annotation must be empty
      by_cases hlen : m.annot.length = 0
      · have hbne : (m.annot.length != 0) = false := by simp [hlen]
        have hemp : m.annot.isEmpty = true := by
          rw [List.isEmpty_iff_length_eq_zero]
          exact hlen
        rw [hbne, hemp]
        simp only [Bool.false_eq_true, if_false, Bool.true_and]
        exact ih Uc Vc Vs last hmaprest hpair.2
          (fun e' h => hord e' (List.mem_cons_of_mem e h)) hUs hVs hUp hVp
      · have hbne : (m.annot.length != 0) = true := by simp [hlen]
        have hemp : m.annot.isEmpty = false := by
          rcases hb : m.annot.isEmpty
          · rfl
          · exact absurd (List.isEmpty_iff_length_eq_zero.mp hb) hlen
        rw [hbne, hemp]
        simp
    · -- bound variable
      have horde : exp_lit_quant_ordering qbf expansion e = quant.ordering := by
        simp only [exp_lit_quant_ordering, hm, hq]
      have hlast : last ≤ quant.ordering := by
        have := hord e (List.mem_cons_self e rest)
        omega
      have hsplit : qbf.pre.take quant.ordering =
          qbf.pre.take last ++ (qbf.pre.drop last).take (quant.ordering - last) := by
        have harith : quant.ordering = last + (quant.ordering - last) := by omega
        nth_rewrite 1 [harith]
        exact List.take_add qbf.pre last (quant.ordering - last)
      rcases hscan : ferat_annot_scan qbf Q (Uc, Vc,
          universal_var_count (qbf.pre.take last)) last quant.ordering with
        ⟨U', V', num'⟩
      simp only [hscan]
      have hfold : ((qbf.pre.drop last).take (quant.ordering - last)).foldl
          (ferat_annot_scan_block Q)
          (Uc, Vc, universal_var_count (qbf.pre.take last)) = (U', V', num') :=
        hscan
      obtain ⟨hnum1, hUp1, hVp1, hUs1, hVs1⟩ :=
        ferat_annot_scan_blocks_spec Q
          ((qbf.pre.drop last).take (quant.ordering - last)) Uc Vc
          (universal_var_count (qbf.pre.take last)) hUs hVs
      rw [hfold] at hnum1 hUp1 hVp1 hUs1 hVs1
      dsimp only at hnum1 hUp1 hVp1 hUs1 hVs1
      have hnum' : num' = universal_var_count (qbf.pre.take quant.ordering) := by
        rw [hsplit, universal_var_count_append]
        exact hnum1
      have hUtake : U'.Perm (claim_U_adds_first Q (qbf.pre.take quant.ordering)) := by
        rw [hsplit, claim_U_adds_first_append]
        exact hUp1.trans (List.Perm.append_right _ hUp)
      have hVspec : V'.Perm (Vs ++ claim_V_adds Q
          ((qbf.pre.drop last).take (quant.ordering - last))) :=
        hVp1.trans (List.Perm.append_right _ hVp)
      by_cases hlen : m.annot.length =
          universal_var_count (qbf.pre.take quant.ordering)
      · have hlen' : m.annot.length = num' := by omega
        have hbne : (m.annot.length != num') = false := by simp [hlen']
        have hbeq : (m.annot.length ==
            universal_var_count (qbf.pre.take quant.ordering)) = true := by
          simp [hlen]
        rw [hbne, hbeq]
        simp only [Bool.false_eq_true, if_false, Bool.true_and]
        -- the two subset checks coincide
        have helem : ∀ a : Literal,
            (allit_binary_search_contains V' a ||
              allit_binary_search_contains U' a) =
            ((claim_U_adds_first Q (qbf.pre.take quant.ordering)).contains a ||
              (Vs ++ claim_V_adds Q
                ((qbf.pre.drop last).take (quant.ordering - last))).contains a) := by
          intro a
          apply Bool.coe_iff_coe.mp
          rw [Bool.or_eq_true, Bool.or_eq_true,
            allit_binary_search_contains_iff V' a hVs1,
            allit_binary_search_contains_iff U' a hUs1,
            list_contains_iff, list_contains_iff,
            hUtake.mem_iff, hVspec.mem_iff]
          exact Or.comm
        have hall : (m.annot.all (fun a =>
            allit_binary_search_contains V' a ||
            allit_binary_search_contains U' a)) = (m.annot.all (fun a =>
            (claim_U_adds_first Q (qbf.pre.take quant.ordering)).contains a ||
            (Vs ++ claim_V_adds Q
              ((qbf.pre.drop last).take (quant.ordering - last))).contains a)) := by
          apply Bool.coe_iff_coe.mp
          rw [List.all_eq_true, List.all_eq_true]
          constructor
          · intro h a ha
            rw [← helem a]
            exact h a ha
          · intro h a ha
            rw [helem a]
            exact h a ha
        rw [hall]
        by_cases hsub : (m.annot.all (fun a =>
            (claim_U_adds_first Q (qbf.pre.take quant.ordering)).contains a ||
            (Vs ++ claim_V_adds Q
              ((qbf.pre.drop last).take (quant.ordering - last))).contains a)) = true
        · rw [hsub]
          simp only [if_true, Bool.true_and]
          obtain ⟨hremeq, hremsorted⟩ := remove_fold_eq_filter_fold m.annot V' hVs1
          have hVnext : (m.annot.foldl
              (fun W a => allit_remove_all W (LIT_NEG a)) V').Perm
              (m.annot.foldl (fun W a => W.filter (fun y => y != LIT_NEG a))
                (Vs ++ claim_V_adds Q
                  ((qbf.pre.drop last).take (quant.ordering - last)))) := by
            rw [hremeq]
            exact filter_fold_perm m.annot _ _ hVspec
          have hVnextsorted : (m.annot.foldl
              (fun W a => allit_remove_all W (LIT_NEG a)) V').Pairwise (· ≤ ·) := by
            rw [hremeq]
            exact hremsorted
          have hordrest : ∀ e' ∈ rest,
              quant.ordering ≤ exp_lit_quant_ordering qbf expansion e' := by
            intro e' h
            have := hpair.1 e' h
            omega
          have hrec := ih U'
            (m.annot.foldl (fun W a => allit_remove_all W (LIT_NEG a)) V')
            (m.annot.foldl (fun W a => W.filter (fun y => y != LIT_NEG a))
              (Vs ++ claim_V_adds Q
                ((qbf.pre.drop last).take (quant.ordering - last))))
            quant.ordering hmaprest hpair.2 hordrest hUs1 hVnextsorted
            hUtake hVnext
          rw [← hnum'] at hrec
          exact hrec
        · have hsub' : (m.annot.all (fun a =>
              (claim_U_adds_first Q (qbf.pre.take quant.ordering)).contains a ||
              (Vs ++ claim_V_adds Q
                ((qbf.pre.drop last).take (quant.ordering - last))).contains a))
              = false := by
            rcases hb : (m.annot.all (fun a =>
                (claim_U_adds_first Q (qbf.pre.take quant.ordering)).contains a ||
                (Vs ++ claim_V_adds Q
                  ((qbf.pre.drop last).take (quant.ordering - last))).contains a))
            · rfl
            · exact absurd hb hsub
          rw [hsub']
          simp
      · have hlen' : ¬(m.annot.length = num') := by omega
        have hbne : (m.annot.length != num') = true := by simp [hlen']
        have hbeq : (m.annot.length ==
            universal_var_count (qbf.pre.take quant.ordering)) = false := by
          simp [hlen]
        rw [hbne, hbeq]
        simp

/-- C2 (amended): for every QBF clause `Q` and expansion clause `E` whose
literals all have mapping records and are sorted by the quantifier ordering
of their mapped QBF variables, `ferat_check_annotations_against_expansion`
computes exactly the property `claim_annot_spec_first`: annotation length
equal to the number of universal variables in prefix blocks strictly before
the binding quantifier, every annotation literal in `U ∪ V` — where `U`
holds, for each universal variable occurring in `Q`, the negation of its
*first* occurrence in `Q` (amendment: not of every occurrence), `V` holds
both polarities of universal variables not occurring in `Q`, and after each
expansion literal's subset check the negations of its annotation literals are
removed from `V` — and an empty annotation for free variables.  In
particular the test returns `true` iff that property holds. -/
theorem c2_annotation_test_amended (Q E : List Literal) (qbf : QBF)
    (expansion : Expansion)
    (hmap : ∀ e ∈ E, (List.lookup (LIT2VAR e) expansion.exp_var_mappings).isSome)
    (hsort : E.Pairwise (fun a b => exp_lit_quant_ordering qbf expansion a ≤
      exp_lit_quant_ordering qbf expansion b)) :
    ferat_check_annotations_against_expansion Q E qbf expansion =
      some (claim_annot_spec_first qbf Q expansion E [] 0) := by
  rw [ferat_check_annotations_against_expansion]
  exact ferat_annot_loop_spec qbf Q expansion E [] [] [] 0 hmap hsort
    (fun e _ => Nat.zero_le _) List.Pairwise.nil List.Pairwise.nil
    (List.Perm.refl []) (List.Perm.refl [])

/-- Witness for the amended C2 theorem at a concrete input: prefix
`∀ x1 . ∃ x2`, clause `(x1 ∨ ¬x1 ∨ x2)`, expansion clause `(e5)` with
`e5 ↦ x2` annotated `[+x1]`. -/
theorem c2_annotation_test_amended_witness :
    ((∀ e ∈ [10], (List.lookup (LIT2VAR e)
        [(5, ({ qbf_var := 2, exp_var := 5, annot := [2] } : ExpVarMapping))]).isSome) ∧
      List.Pairwise (fun a b =>
        exp_lit_quant_ordering
          { pre := [⟨QuantType.universal, 0, [1]⟩, ⟨QuantType.existential, 1, [2]⟩],
            matrix := [[2, 3, 4]],
            prefix_mapping := [(1, ⟨QuantType.universal, 0, [1]⟩),
                               (2, ⟨QuantType.existential, 1, [2]⟩)] }
          { exp_var_mappings :=
              [(5, { qbf_var := 2, exp_var := 5, annot := [2] })],
            clause_origins := none } a ≤
        exp_lit_quant_ordering
          { pre := [⟨QuantType.universal, 0, [1]⟩, ⟨QuantType.existential, 1, [2]⟩],
            matrix := [[2, 3, 4]],
            prefix_mapping := [(1, ⟨QuantType.universal, 0, [1]⟩),
                               (2, ⟨QuantType.existential, 1, [2]⟩)] }
          { exp_var_mappings :=
              [(5, { qbf_var := 2, exp_var := 5, annot := [2] })],
            clause_origins := none } b) [10]) ∧
    ferat_check_annotations_against_expansion [2, 3, 4] [10]
        { pre := [⟨QuantType.universal, 0, [1]⟩, ⟨QuantType.existential, 1, [2]⟩],
          matrix := [[2, 3, 4]],
          prefix_mapping := [(1, ⟨QuantType.universal, 0, [1]⟩),
                             (2, ⟨QuantType.existential, 1, [2]⟩)] }
        { exp_var_mappings :=
            [(5, { qbf_var := 2, exp_var := 5, annot := [2] })],
          clause_origins := none } =
      some (claim_annot_spec_first
        { pre := [⟨QuantType.universal, 0, [1]⟩, ⟨QuantType.existential, 1, [2]⟩],
          matrix := [[2, 3, 4]],
          prefix_mapping := [(1, ⟨QuantType.universal, 0, [1]⟩),
                             (2, ⟨QuantType.existential, 1, [2]⟩)] }
        [2, 3, 4]
        { exp_var_mappings :=
            [(5, { qbf_var := 2, exp_var := 5, annot := [2] })],
          clause_origins := none } [10] [] 0) :=
  ⟨⟨by decide, by decide⟩, c2_annotation_test_amended [2, 3, 4] [10] _ _
    (by decide) (by decide)⟩

/-- C2 counterexample: at the same prefix `∀ x1 . ∃ x2` with the tautological
clause `(x1 ∨ ¬x1 ∨ x2)` and expansion clause `(e5)`, `e5 ↦ x2` annotated
`[+x1]` — a sorted clause whose literals all have mapping records — the
annotation test returns `false` (the code only admits the negation of the
*first* occurrence of `x1`, the literal `¬x1`), while the property as the
claim states it (`U` holds the negation of *each* literal of `Q` on a
universal variable, hence also `+x1`) holds; so "returns true iff" fails. -/
theorem c2_annotation_test_counterexample :
    ((∀ e ∈ [10], (List.lookup (LIT2VAR e)
        [(5, ({ qbf_var := 2, exp_var := 5, annot := [2] } : ExpVarMapping))]).isSome) ∧
      List.Pairwise (fun a b =>
        exp_lit_quant_ordering
          { pre := [⟨QuantType.universal, 0, [1]⟩, ⟨QuantType.existential, 1, [2]⟩],
            matrix := [[2, 3, 4]],
            prefix_mapping := [(1, ⟨QuantType.universal, 0, [1]⟩),
                               (2, ⟨QuantType.existential, 1, [2]⟩)] }
          { exp_var_mappings :=
              [(5, { qbf_var := 2, exp_var := 5, annot := [2] })],
            clause_origins := none } a ≤
        exp_lit_quant_ordering
          { pre := [⟨QuantType.universal, 0, [1]⟩, ⟨QuantType.existential, 1, [2]⟩],
            matrix := [[2, 3, 4]],
            prefix_mapping := [(1, ⟨QuantType.universal, 0, [1]⟩),
                               (2, ⟨QuantType.existential, 1, [2]⟩)] }
          { exp_var_mappings :=
              [(5, { qbf_var := 2, exp_var := 5, annot := [2] })],
            clause_origins := none } b) [10]) ∧
    ferat_check_annotations_against_expansion [2, 3, 4] [10]
        { pre := [⟨QuantType.universal, 0, [1]⟩, ⟨QuantType.existential, 1, [2]⟩],
          matrix := [[2, 3, 4]],
          prefix_mapping := [(1, ⟨QuantType.universal, 0, [1]⟩),
                             (2, ⟨QuantType.existential, 1, [2]⟩)] }
        { exp_var_mappings :=
            [(5, { qbf_var := 2, exp_var := 5, annot := [2] })],
          clause_origins := none } = some false ∧
    claim_annot_spec_claimed
        { pre := [⟨QuantType.universal, 0, [1]⟩, ⟨QuantType.existential, 1, [2]⟩],
          matrix := [[2, 3, 4]],
          prefix_mapping := [(1, ⟨QuantType.universal, 0, [1]⟩),
                             (2, ⟨QuantType.existential, 1, [2]⟩)] }
        [2, 3, 4]
        { exp_var_mappings :=
            [(5, { qbf_var := 2, exp_var := 5, annot := [2] })],
          clause_origins := none } [10] [] 0 = true ∧
    ¬(ferat_check_annotations_against_expansion [2, 3, 4] [10]
        { pre := [⟨QuantType.universal, 0, [1]⟩, ⟨QuantType.existential, 1, [2]⟩],
          matrix := [[2, 3, 4]],
          prefix_mapping := [(1, ⟨QuantType.universal, 0, [1]⟩),
                             (2, ⟨QuantType.existential, 1, [2]⟩)] }
        { exp_var_mappings :=
            [(5, { qbf_var := 2, exp_var := 5, annot := [2] })],
          clause_origins := none } = some true ↔
      claim_annot_spec_claimed
        { pre := [⟨QuantType.universal, 0, [1]⟩, ⟨QuantType.existential, 1, [2]⟩],
          matrix := [[2, 3, 4]],
          prefix_mapping := [(1, ⟨QuantType.universal, 0, [1]⟩),
                             (2, ⟨QuantType.existential, 1, [2]⟩)] }
        [2, 3, 4]
        { exp_var_mappings :=
            [(5, { qbf_var := 2, exp_var := 5, annot := [2] })],
          clause_origins := none } [10] [] 0 = true) := by
  have hcode : ferat_check_annotations_against_expansion [2, 3, 4] [10]
      { pre := [⟨QuantType.universal, 0, [1]⟩, ⟨QuantType.existential, 1, [2]⟩],
        matrix := [[2, 3, 4]],
        prefix_mapping := [(1, ⟨QuantType.universal, 0, [1]⟩),
                           (2, ⟨QuantType.existential, 1, [2]⟩)] }
      { exp_var_mappings :=
          [(5, { qbf_var := 2, exp_var := 5, annot := [2] })],
        clause_origins := none } = some false := by
    rw [ferat_check_annotations_against_expansion]
    exact (ferat_annot_loop_spec _ [2, 3, 4] _ [10] [] [] [] 0 (by decide)
      (by decide) (fun e _ => Nat.zero_le _) List.Pairwise.nil
      List.Pairwise.nil (List.Perm.refl []) (List.Perm.refl [])).trans
      (by decide)
  refine ⟨⟨by decide, by decide⟩, hcode, by decide, ?_⟩
  rw [hcode]
  intro h
  have := h.mpr (by decide)
  simp at this

/-! ## Iterative in-place quicksort (sorting.c)

`iterative_inplace_quickort` sorts an array of 32-bit values by a projection
`π` using Lomuto partitioning with the rightmost element as pivot and an
explicit stack of `(low, high)` index pairs (pushed low-then-high, popped
high-then-low; the list model keeps the top of the stack at the head).  The
C partition counter `i` (starting at `low - 1` as a signed integer) is
modelled by the boundary `b = i + 1`. -/

/-- Array access `values[i]` on the list model. -/
def nth (l : List Nat) (i : Nat) : Nat := l.getD i 0

/-- `SWAP_PTR_VALUES(tmp, values + i, values + j)` on the list model. -/
def listSwap (l : List Nat) (i j : Nat) : List Nat :=
  (l.set i (nth l j)).set j (nth l i)

theorem listSwap_length (l : List Nat) (i j : Nat) :
    (listSwap l i j).length = l.length := by
  rw [listSwap, List.length_set, List.length_set]

theorem nth_set (l : List Nat) (i k a : Nat) :
    nth (l.set i a) k = if k = i ∧ i < l.length then a else nth l k := by
  by_cases h : k = i ∧ i < l.length
  · rw [if_pos h, nth]
    obtain ⟨h1, h2⟩ := h
    subst h1
    rw [List.getD_eq_getElem _ _ (by rw [List.length_set]; exact h2)]
    exact List.getElem_set_self _
  · rw [if_neg h, nth, nth]
    by_cases hk : k = i
    · subst hk
      have hky : ¬(k < l.length) := fun hc => h ⟨rfl, hc⟩
      rw [List.getD_eq_default _ _ (by rw [List.length_set]; omega),
        List.getD_eq_default _ _ (by omega)]
    · by_cases hkl : k < l.length
      · rw [List.getD_eq_getElem _ _ (by rw [List.length_set]; exact hkl),
          List.getD_eq_getElem _ _ hkl]
        exact List.getElem_set_ne (Ne.symm hk) _
      · rw [List.getD_eq_default _ _ (by rw [List.length_set]; omega),
          List.getD_eq_default _ _ (by omega)]

theorem nth_listSwap (l : List Nat) (i j k : Nat) (hi : i < l.length)
    (hj : j < l.length) :
    nth (listSwap l i j) k =
      if k = j then nth l i else if k = i then nth l j else nth l k := by
  rw [listSwap, nth_set, nth_set, List.length_set]
  by_cases hkj : k = j
  · simp [hkj, hj]
  · by_cases hki : k = i
    · subst hki
      simp [hkj, hi]
    · simp [hkj, hki]

theorem perm_set_of_nth (a x : Nat) :
    ∀ (l : List Nat) (k : Nat), k < l.length → nth l k = x →
      (x :: l.set k a).Perm (a :: l) := by
  intro l
  induction l with
  | nil =>
    intro k h
    simp at h
  | cons hd tl ih =>
    intro k hk hx
    cases k with
    | zero =>
      have hxhd : x = hd := by
        rw [← hx]
        rfl
      subst hxhd
      rw [List.set_cons_zero]
      exact List.Perm.swap a x tl
    | succ k' =>
      have hk' : k' < tl.length := by simpa using hk
      have hx' : nth tl k' = x := hx
      rw [List.set_cons_succ]
      exact (List.Perm.swap hd x _).trans
        (((ih k' hk' hx').cons hd).trans (List.Perm.swap a hd tl))

theorem set_nth_self (l : List Nat) (k : Nat) (hk : k < l.length) :
    l.set k (nth l k) = l := by
  rw [nth, List.getD_eq_getElem l 0 hk]
  apply List.ext_getElem
  · simp
  · intro i hi hi2
    by_cases hik : i = k
    · subst hik
      exact List.getElem_set_self _
    · exact List.getElem_set_ne (Ne.symm hik) _

theorem listSwap_perm (l : List Nat) (i j : Nat) (hi : i < l.length)
    (hj : j < l.length) :
    (listSwap l i j).Perm l := by
  by_cases hij : i = j
  · subst hij
    rw [listSwap, set_nth_self l i hi, set_nth_self l i hi]
  · have h1 : (nth l j :: (l.set i (nth l j)).set j (nth l i)).Perm
        (nth l i :: l.set i (nth l j)) := by
      refine perm_set_of_nth (nth l i) (nth l j) (l.set i (nth l j)) j
        (by rw [List.length_set]; exact hj) ?_
      rw [nth_set]
      rw [if_neg (by intro h; exact hij h.1.symm)]
    have h2 : (nth l i :: l.set i (nth l j)).Perm (nth l j :: l) :=
      perm_set_of_nth (nth l j) (nth l i) l i hi rfl
    have h3 := h1.trans h2
    exact h3.cons_inv

/-- The partition loop of `iterative_inplace_quickort` (sorting.c lines
50-54): `for (j = low; j < high; ++j)` moving elements with key `≤ central`
to the left; the C signed counter `i` is modelled by the boundary
`b = i + 1`. -/
def lomuto_go (π : Nat → Nat) (central high : Nat) (l : List Nat)
    (b j : Nat) : List Nat × Nat :=
  if j < high then
    if π (nth l j) > central then lomuto_go π central high l b (j + 1)
    else lomuto_go π central high (listSwap l b j) (b + 1) (j + 1)
  else (l, b)
termination_by high - j
decreasing_by
  · omega
  · omega

theorem lomuto_go_b_bounds (π : Nat → Nat) (central high : Nat) :
    ∀ (n : Nat) (l : List Nat) (b j : Nat), high - j ≤ n →
      b ≤ (lomuto_go π central high l b j).2 ∧
      (lomuto_go π central high l b j).2 ≤ b + (high - j) := by
  intro n
  induction n with
  | zero =>
    intro l b j hm
    rw [lomuto_go, if_neg (by omega)]
    omega
  | succ n ih =>
    intro l b j hm
    rw [lomuto_go]
    by_cases hj : j < high
    · rw [if_pos hj]
      by_cases hgt : π (nth l j) > central
      · rw [if_pos hgt]
        have := ih l b (j + 1) (by omega)
        omega
      · rw [if_neg hgt]
        have := ih (listSwap l b j) (b + 1) (j + 1) (by omega)
        omega
    · rw [if_neg hj]
      omega

/-- One full partition step of `iterative_inplace_quickort` (sorting.c lines
45-61): Lomuto partition keyed by `π` with `values[high]` as pivot value;
returns the array and the pivot index `i + 1`. -/
def lomuto_partition (π : Nat → Nat) (l : List Nat) (low high : Nat) :
    List Nat × Nat :=
  match lomuto_go π (π (nth l high)) high l low low with
  | (l', b) => (if b < high then listSwap l' b high else l', b)

theorem lomuto_partition_pivot_bounds (π : Nat → Nat) (l : List Nat)
    (low high : Nat) :
    low ≤ (lomuto_partition π l low high).2 ∧
    (lomuto_partition π l low high).2 ≤ low + (high - low) := by
  have h := lomuto_go_b_bounds π (π (nth l high)) high (high - low) l low low
    (Nat.le_refl _)
  rw [lomuto_partition]
  rcases hgo : lomuto_go π (π (nth l high)) high l low low with ⟨l', b⟩
  rw [hgo] at h
  exact h

theorem lomuto_go_post (π : Nat → Nat) (central low high : Nat) :
    ∀ (n : Nat) (l : List Nat) (b j : Nat), high - j ≤ n →
      low ≤ b → b ≤ j → j ≤ high → high < l.length →
      (∀ k, low ≤ k → k < b → π (nth l k) ≤ central) →
      (∀ k, b ≤ k → k < j → central < π (nth l k)) →
      (lomuto_go π central high l b j).1.length = l.length ∧
      (∀ k, k < low ∨ high ≤ k →
        nth (lomuto_go π central high l b j).1 k = nth l k) ∧
      (∀ k, low ≤ k → k < (lomuto_go π central high l b j).2 →
        π (nth (lomuto_go π central high l b j).1 k) ≤ central) ∧
      (∀ k, (lomuto_go π central high l b j).2 ≤ k → k < high →
        central < π (nth (lomuto_go π central high l b j).1 k)) ∧
      (lomuto_go π central high l b j).1.Perm l ∧
      (∀ k, low ≤ k → k < high →
        ∃ k', low ≤ k' ∧ k' < high ∧
          nth (lomuto_go π central high l b j).1 k = nth l k') := by
  intro n
  induction n with
  | zero =>
    intro l b j hm hlb hbj hjh hhl hA hC
    have hjhigh : j = high := by omega
    rw [lomuto_go, if_neg (by omega)]
    subst hjhigh
    exact ⟨rfl, fun k _ => rfl, hA, hC, List.Perm.refl l,
      fun k hk1 hk2 => ⟨k, hk1, hk2, rfl⟩⟩
  | succ n ih =>
    intro l b j hm hlb hbj hjh hhl hA hC
    rw [lomuto_go]
    by_cases hj : j < high
    · rw [if_pos hj]
      by_cases hgt : π (nth l j) > central
      · rw [if_pos hgt]
        refine ih l b (j + 1) (by omega) hlb (by omega) (by omega) hhl hA ?_
        intro k hk1 hk2
        by_cases hkj : k = j
        · subst hkj
          exact hgt
        · exact hC k hk1 (by omega)
      · rw [if_neg hgt]
        have hble : b < l.length := by omega
        have hjle : j < l.length := by omega
        have hswap := nth_listSwap l b j
        have hlen2 : high < (listSwap l b j).length := by
          rw [listSwap_length]
          exact hhl
        have hA2 : ∀ k, low ≤ k → k < b + 1 →
            π (nth (listSwap l b j) k) ≤ central := by
          intro k hk1 hk2
          rw [hswap k hble hjle]
          by_cases h1 : k = j
          · rw [if_pos h1]
            have hbk : b = k := by omega
            subst hbk
            rw [h1]
            exact Nat.le_of_not_lt hgt
          · rw [if_neg h1]
            by_cases h2 : k = b
            · rw [if_pos h2]
              exact Nat.le_of_not_lt hgt
            · rw [if_neg h2]
              exact hA k hk1 (by omega)
        have hC2 : ∀ k, b + 1 ≤ k → k < j + 1 →
            central < π (nth (listSwap l b j) k) := by
          intro k hk1 hk2
          rw [hswap k hble hjle]
          by_cases h1 : k = j
          · rw [if_pos h1]
            exact hC b (Nat.le_refl b) (by omega)
          · rw [if_neg h1]
            rw [if_neg (by omega)]
            exact hC k (by omega) (by omega)
        obtain ⟨rlen, rout, rA, rC, rperm, rimg⟩ :=
          ih (listSwap l b j) (b + 1) (j + 1) (by omega) (by omega) (by omega)
            (by omega) hlen2 hA2 hC2
        refine ⟨by rw [rlen, listSwap_length], ?_, rA, rC,
          rperm.trans (listSwap_perm l b j hble hjle), ?_⟩
        · intro k hk
          rw [rout k hk, hswap k hble hjle]
          rw [if_neg (by omega), if_neg (by omega)]
        · intro k hk1 hk2
          obtain ⟨k', hk'1, hk'2, hk'eq⟩ := rimg k hk1 hk2
          rw [hswap k' hble hjle] at hk'eq
          by_cases h1 : k' = j
          · exact ⟨b, by omega, by omega, by rwa [if_pos h1] at hk'eq⟩
          · by_cases h2 : k' = b
            · rw [if_neg h1, if_pos h2] at hk'eq
              exact ⟨j, by omega, by omega, hk'eq⟩
            · rw [if_neg h1, if_neg h2] at hk'eq
              exact ⟨k', hk'1, hk'2, hk'eq⟩
    · rw [if_neg hj]
      have hjhigh : j = high := by omega
      subst hjhigh
      exact ⟨rfl, fun k _ => rfl, hA, hC, List.Perm.refl l,
        fun k hk1 hk2 => ⟨k, hk1, hk2, rfl⟩⟩

theorem lomuto_partition_post (π : Nat → Nat) (l : List Nat) (low high : Nat)
    (hlh : low ≤ high) (hhl : high < l.length) :
    (lomuto_partition π l low high).1.length = l.length ∧
    (∀ k, k < low ∨ high < k →
      nth (lomuto_partition π l low high).1 k = nth l k) ∧
    low ≤ (lomuto_partition π l low high).2 ∧
    (lomuto_partition π l low high).2 ≤ high ∧
    (∀ k, low ≤ k → k < (lomuto_partition π l low high).2 →
      π (nth (lomuto_partition π l low high).1 k) ≤
        π (nth (lomuto_partition π l low high).1
            (lomuto_partition π l low high).2)) ∧
    (∀ k, (lomuto_partition π l low high).2 < k → k ≤ high →
      π (nth (lomuto_partition π l low high).1
          (lomuto_partition π l low high).2) <
        π (nth (lomuto_partition π l low high).1 k)) ∧
    (lomuto_partition π l low high).1.Perm l ∧
    (∀ k, low ≤ k → k ≤ high →
      ∃ k', low ≤ k' ∧ k' ≤ high ∧
        nth (lomuto_partition π l low high).1 k = nth l k') := by
  obtain ⟨glen, gout, gA, gC, gperm, gimg⟩ :=
    lomuto_go_post π (π (nth l high)) low high (high - low) l low low
      (Nat.le_refl _) (Nat.le_refl _) (Nat.le_refl _) hlh hhl
      (fun k _ hk => absurd hk (by omega)) (fun k _ hk => absurd hk (by omega))
  obtain ⟨hble, hbhigh⟩ := lomuto_go_b_bounds π (π (nth l high)) high
    (high - low) l low low (Nat.le_refl _)
  rcases hgo : lomuto_go π (π (nth l high)) high l low low with ⟨l', b⟩
  rw [hgo] at glen gout gA gC gperm gimg hble hbhigh
  dsimp only at glen gout gA gC gperm gimg hble hbhigh
  have hpart : lomuto_partition π l low high =
      (if b < high then listSwap l' b high else l', b) := by
    rw [lomuto_partition, hgo]
  rw [hpart]
  dsimp only
  have hhl' : high < l'.length := by omega
  have hhigh_val : nth l' high = nth l high := gout high (Or.inr (Nat.le_refl _))
  by_cases hbh : b < high
  · rw [if_pos hbh]
    have hswap := nth_listSwap l' b high
    have hb' : b < l'.length := by omega
    -- the pivot position now holds the pivot value
    have hpivval : nth (listSwap l' b high) b = nth l high := by
      rw [hswap b hb' hhl']
      by_cases hbh' : b = high
      · omega
      · rw [if_neg hbh', if_pos rfl]
        exact hhigh_val
    refine ⟨by rw [listSwap_length]; exact glen, ?_, by omega, by omega,
      ?_, ?_, (listSwap_perm l' b high hb' hhl').trans gperm, ?_⟩
    · intro k hk
      rw [hswap k hb' hhl']
      rw [if_neg (by omega), if_neg (by omega)]
      exact gout k (by omega)
    · intro k hk1 hk2
      rw [hpivval, hswap k hb' hhl']
      rw [if_neg (by omega), if_neg (by omega)]
      have := gA k hk1 hk2
      rw [← hhigh_val]
      rw [hhigh_val]
      exact this
    · intro k hk1 hk2
      rw [hpivval, hswap k hb' hhl']
      by_cases hkh : k = high
      · rw [if_pos hkh]
        exact gC b (Nat.le_refl b) hbh
      · rw [if_neg hkh, if_neg (by omega)]
        exact gC k (by omega) (by omega)
    · intro k hk1 hk2
      rw [hswap k hb' hhl']
      by_cases h1 : k = high
      · rw [if_pos h1]
        obtain ⟨k', h'1, h'2, h'eq⟩ := gimg b (by omega) hbh
        exact ⟨k', h'1, by omega, h'eq⟩
      · rw [if_neg h1]
        by_cases h2 : k = b
        · rw [if_pos h2]
          exact ⟨high, hlh, Nat.le_refl high, hhigh_val⟩
        · rw [if_neg h2]
          obtain ⟨k', h'1, h'2, h'eq⟩ := gimg k hk1 (by omega)
          exact ⟨k', h'1, by omega, h'eq⟩
  · rw [if_neg hbh]
    have hbhigh' : b = high := by omega
    refine ⟨glen, fun k hk => gout k (by omega), by omega, by omega,
      ?_, ?_, gperm, ?_⟩
    · intro k hk1 hk2
      rw [hbhigh', hhigh_val]
      exact gA k hk1 (by omega)
    · intro k hk1 hk2
      omega
    · intro k hk1 hk2
      by_cases hkh : k = high
      · subst hkh
        exact ⟨k, hk1, Nat.le_refl k, hhigh_val⟩
      · obtain ⟨k', h'1, h'2, h'eq⟩ := gimg k hk1 (by omega)
        exact ⟨k', h'1, by omega, h'eq⟩

/-- Combined segment size of a quicksort stack (termination measure). -/
def stack_measure (stack : List (Nat × Nat)) : Nat :=
  (stack.map (fun p => p.2 + 1 - p.1)).sum

/-- The `while ((*stack)->size > 0)` loop of `iterative_inplace_quickort`
(sorting.c lines 41-69): pop `(low, high)`, partition, and push the sub-ranges
`(low, pivot - 1)` (when `low + 1 < pivot`) and `(pivot + 1, high)` (when
`high - 1 > pivot`); the second push ends up on top of the stack.  (The C
`high - 1` underflow for `high = 0` cannot occur on stacks reachable from the
initial push, where every `high` is at least 1.) -/
def quicksort_loop (π : Nat → Nat) : List (Nat × Nat) → List Nat → List Nat
  | [], l => l
  | (low, high) :: stack, l =>
    quicksort_loop π
      ((if high - 1 > (lomuto_partition π l low high).2 then
          [((lomuto_partition π l low high).2 + 1, high)] else []) ++
       (if low + 1 < (lomuto_partition π l low high).2 then
          [(low, (lomuto_partition π l low high).2 - 1)] else []) ++ stack)
      (lomuto_partition π l low high).1
termination_by stack _ => 2 * stack_measure stack + stack.length
decreasing_by
  have hb := lomuto_partition_pivot_bounds π l low high
  simp only [stack_measure, List.map_append, List.sum_append, List.map_cons,
    List.sum_cons, List.length_append, List.length_cons]
  split_ifs <;>
    simp only [List.map_cons, List.map_nil, List.sum_cons, List.sum_nil,
      List.length_cons, List.length_nil] <;>
    omega

/-- `iterative_inplace_quickort` from sorting.c: arrays of fewer than two
elements are returned unchanged, otherwise the stack starts with
`(0, size - 1)`.  (The C stack parameter is reused storage across calls and
is always logically empty at entry and exit; the model keeps it internal.) -/
def iterative_inplace_quickort (π : Nat → Nat) (values : List Nat) : List Nat :=
  if values.length < 2 then values
  else quicksort_loop π [(0, values.length - 1)] values

/-- `i` and `j` lie inside a single stack segment. -/
def SegIn (stack : List (Nat × Nat)) (i j : Nat) : Prop :=
  ∃ p ∈ stack, p.1 ≤ i ∧ j ≤ p.2

theorem SegIn_nil (i j : Nat) : ¬ SegIn [] i j := by
  rintro ⟨p, hp, _⟩
  exact List.not_mem_nil p hp

theorem SegIn_cons {p : Nat × Nat} {S : List (Nat × Nat)} {i j : Nat} :
    SegIn (p :: S) i j ↔ (p.1 ≤ i ∧ j ≤ p.2) ∨ SegIn S i j := by
  constructor
  · rintro ⟨q, hq, h1, h2⟩
    rcases List.mem_cons.mp hq with h | h
    · subst h
      exact Or.inl ⟨h1, h2⟩
    · exact Or.inr ⟨q, h, h1, h2⟩
  · rintro (⟨h1, h2⟩ | ⟨q, hq, h1, h2⟩)
    · exact ⟨p, List.mem_cons_self p S, h1, h2⟩
    · exact ⟨q, List.mem_cons_of_mem p hq, h1, h2⟩

theorem SegIn_append {A B : List (Nat × Nat)} {i j : Nat} :
    SegIn (A ++ B) i j ↔ SegIn A i j ∨ SegIn B i j := by
  constructor
  · rintro ⟨q, hq, h1, h2⟩
    rcases List.mem_append.mp hq with h | h
    · exact Or.inl ⟨q, h, h1, h2⟩
    · exact Or.inr ⟨q, h, h1, h2⟩
  · rintro (⟨q, hq, h1, h2⟩ | ⟨q, hq, h1, h2⟩)
    · exact ⟨q, List.mem_append.mpr (Or.inl hq), h1, h2⟩
    · exact ⟨q, List.mem_append.mpr (Or.inr hq), h1, h2⟩

theorem SegIn_if_single {c : Prop} [Decidable c] {a b i j : Nat} :
    SegIn (if c then [(a, b)] else []) i j ↔ (c ∧ a ≤ i ∧ j ≤ b) := by
  by_cases h : c
  · rw [if_pos h, SegIn_cons]
    constructor
    · rintro (⟨h1, h2⟩ | habs)
      · exact ⟨h, h1, h2⟩
      · exact absurd habs (SegIn_nil i j)
    · rintro ⟨_, h1, h2⟩
      exact Or.inl ⟨h1, h2⟩
  · rw [if_neg h]
    constructor
    · intro habs
      exact absurd habs (SegIn_nil i j)
    · rintro ⟨hc, _⟩
      exact absurd hc h

theorem pairwise_disj_push (π : Nat → Nat) (l : List Nat)
    (pv low high : Nat) (rest : List (Nat × Nat))
    (hpw : List.Pairwise (fun p q => p.2 < q.1 ∨ q.2 < p.1) ((low, high) :: rest))
    (hlp : low ≤ pv) (hph : pv ≤ high) :
    List.Pairwise (fun p q => p.2 < q.1 ∨ q.2 < p.1)
      ((if high - 1 > pv then [(pv + 1, high)] else []) ++
       (if low + 1 < pv then [(low, pv - 1)] else []) ++ rest) := by
  obtain ⟨hd0, hrest⟩ := List.pairwise_cons.mp hpw
  split_ifs with h1 h2 h2
  · refine List.pairwise_cons.mpr ⟨?_, List.pairwise_cons.mpr ⟨?_, hrest⟩⟩
    · intro q hq
      rcases List.mem_cons.mp hq with h | h
      · subst h
        exact Or.inr (by omega)
      · rcases hd0 q h with h' | h'
        · exact Or.inl (by omega)
        · exact Or.inr (by omega)
    · intro q hq
      rcases hd0 q hq with h' | h'
      · exact Or.inl (by omega)
      · exact Or.inr (by omega)
  · refine List.pairwise_cons.mpr ⟨?_, hrest⟩
    intro q hq
    rcases hd0 q hq with h' | h'
    · exact Or.inl (by omega)
    · exact Or.inr (by omega)
  · refine List.pairwise_cons.mpr ⟨?_, hrest⟩
    intro q hq
    rcases hd0 q hq with h' | h'
    · exact Or.inl (by omega)
    · exact Or.inr (by omega)
  · exact hrest

/-- Main invariant of the quicksort loop: if the stack's segments are
in-bounds, pairwise disjoint, and every pair of positions not contained in a
common segment is already ordered by the key `π`, then the loop returns a
permutation of its input that is fully ordered by `π`. -/
theorem quicksort_loop_post (π : Nat → Nat) :
    ∀ (n : Nat) (stack : List (Nat × Nat)) (l : List Nat),
      2 * stack_measure stack + stack.length ≤ n →
      (∀ p ∈ stack, p.1 < p.2 ∧ p.2 < l.length) →
      List.Pairwise (fun p q => p.2 < q.1 ∨ q.2 < p.1) stack →
      (∀ i j, i < j → j < l.length → ¬ SegIn stack i j →
        π (nth l i) ≤ π (nth l j)) →
      (quicksort_loop π stack l).Perm l ∧
      (∀ i j, i < j → j < l.length →
        π (nth (quicksort_loop π stack l) i) ≤
          π (nth (quicksort_loop π stack l) j)) := by
  intro n
  induction n with
  | zero =>
    intro stack l hm hb hpw hInv
    match stack with
    | [] =>
      rw [quicksort_loop]
      exact ⟨List.Perm.refl l, fun i j hij hjl => hInv i j hij hjl (SegIn_nil i j)⟩
    | (low, high) :: rest =>
      exfalso
      simp only [List.length_cons] at hm
      omega
  | succ n ih =>
    intro stack l hm hb hpw hInv
    match stack with
    | [] =>
      rw [quicksort_loop]
      exact ⟨List.Perm.refl l, fun i j hij hjl => hInv i j hij hjl (SegIn_nil i j)⟩
    | (low, high) :: rest =>
      rw [quicksort_loop]
      have hlh' : low < high := (hb (low, high) (List.mem_cons_self _ _)).1
      have hhl : high < l.length := (hb (low, high) (List.mem_cons_self _ _)).2
      obtain ⟨glen, gout, gpl, gph, gA, gC, gperm, gimg⟩ :=
        lomuto_partition_post π l low high (by omega) hhl
      rcases hP : lomuto_partition π l low high with ⟨l1, pv⟩
      rw [hP] at glen gout gpl gph gA gC gperm gimg
      dsimp only at glen gout gpl gph gA gC gperm gimg ⊢
      have hmeas : 2 * stack_measure
            ((if high - 1 > pv then [(pv + 1, high)] else []) ++
             (if low + 1 < pv then [(low, pv - 1)] else []) ++ rest) +
          ((if high - 1 > pv then [(pv + 1, high)] else []) ++
           (if low + 1 < pv then [(low, pv - 1)] else []) ++ rest).length ≤ n := by
        simp only [stack_measure, List.map_append, List.sum_append,
          List.length_append, List.map_cons, List.sum_cons,
          List.length_cons] at hm ⊢
        split_ifs <;>
          simp only [List.map_cons, List.map_nil, List.sum_cons, List.sum_nil,
            List.length_cons, List.length_nil] <;>
          omega
      have hb' : ∀ p ∈ (if high - 1 > pv then [(pv + 1, high)] else []) ++
            (if low + 1 < pv then [(low, pv - 1)] else []) ++ rest,
          p.1 < p.2 ∧ p.2 < l1.length := by
        intro p hp
        rw [glen]
        rcases List.mem_append.mp hp with h | h
        · rcases List.mem_append.mp h with h | h
          · by_cases hc : high - 1 > pv
            · rw [if_pos hc] at h
              rcases List.mem_singleton.mp h with h
              subst h
              exact ⟨by omega, hhl⟩
            · rw [if_neg hc] at h
              exact absurd h (List.not_mem_nil p)
          · by_cases hc : low + 1 < pv
            · rw [if_pos hc] at h
              rcases List.mem_singleton.mp h with h
              subst h
              exact ⟨by omega, by omega⟩
            · rw [if_neg hc] at h
              exact absurd h (List.not_mem_nil p)
        · exact hb p (List.mem_cons_of_mem _ h)
      have hpw' := pairwise_disj_push π l pv low high rest hpw gpl gph
      have hInv' : ∀ i j, i < j → j < l1.length →
          ¬ SegIn ((if high - 1 > pv then [(pv + 1, high)] else []) ++
                   (if low + 1 < pv then [(low, pv - 1)] else []) ++ rest) i j →
          π (nth l1 i) ≤ π (nth l1 j) := by
        intro i j hij hjlen hseg
        rw [glen] at hjlen
        rw [SegIn_append, SegIn_append, SegIn_if_single, SegIn_if_single] at hseg
        have hsegR : ¬ (high - 1 > pv ∧ pv + 1 ≤ i ∧ j ≤ high) :=
          fun h => hseg (Or.inl (Or.inl h))
        have hsegL : ¬ (low + 1 < pv ∧ low ≤ i ∧ j ≤ pv - 1) :=
          fun h => hseg (Or.inl (Or.inr h))
        have hsegRest : ¬ SegIn rest i j := fun h => hseg (Or.inr h)
        by_cases hiIn : low ≤ i ∧ i ≤ high
        · by_cases hjIn : j ≤ high
          · rcases Nat.lt_trichotomy j pv with hjp | hjp | hjp
            · exact absurd ⟨by omega, by omega, by omega⟩ hsegL
            · subst hjp
              exact gA i hiIn.1 (by omega)
            · rcases Nat.lt_trichotomy i pv with hip | hip | hip
              · exact (gA i hiIn.1 hip).trans (Nat.le_of_lt (gC j hjp hjIn))
              · subst hip
                exact Nat.le_of_lt (gC j hjp hjIn)
              · exact absurd ⟨by omega, by omega, by omega⟩ hsegR
          · obtain ⟨i', hi'1, hi'2, hi'eq⟩ := gimg i hiIn.1 hiIn.2
            have hjout : nth l1 j = nth l j := gout j (Or.inr (by omega))
            rw [hi'eq, hjout]
            apply hInv i' j (by omega) hjlen
            rw [SegIn_cons]
            rintro (⟨h1, h2⟩ | ⟨q, hq, hq1, hq2⟩)
            · omega
            · rcases (List.pairwise_cons.mp hpw).1 q hq with h | h <;> omega
        · by_cases hjIn : low ≤ j ∧ j ≤ high
          · have hilow : i < low := by omega
            obtain ⟨j', hj'1, hj'2, hj'eq⟩ := gimg j hjIn.1 hjIn.2
            have hiouteq : nth l1 i = nth l i := gout i (Or.inl hilow)
            rw [hj'eq, hiouteq]
            apply hInv i j' (by omega) (by omega)
            rw [SegIn_cons]
            rintro (⟨h1, h2⟩ | ⟨q, hq, hq1, hq2⟩)
            · omega
            · rcases (List.pairwise_cons.mp hpw).1 q hq with h | h <;> omega
          · have hiout : i < low ∨ high < i := by omega
            have hjout' : j < low ∨ high < j := by omega
            rw [gout i hiout, gout j hjout']
            apply hInv i j hij hjlen
            rw [SegIn_cons]
            rintro (⟨h1, h2⟩ | hrest)
            · omega
            · exact hsegRest hrest
      obtain ⟨hperm, hsorted⟩ := ih _ l1 hmeas hb' hpw' hInv'
      refine ⟨hperm.trans gperm, ?_⟩
      intro i j hij hjlen
      exact hsorted i j hij (by rw [glen]; exact hjlen)

/-- Top-level correctness of `iterative_inplace_quickort`: the result is a
permutation of the input, ordered (non-strictly) by the key `π`. -/
theorem iterative_inplace_quickort_post (π : Nat → Nat) (values : List Nat) :
    (iterative_inplace_quickort π values).Perm values ∧
    (∀ i j, i < j → j < values.length →
      π (nth (iterative_inplace_quickort π values) i) ≤
        π (nth (iterative_inplace_quickort π values) j)) := by
  rw [iterative_inplace_quickort]
  by_cases h : values.length < 2
  · rw [if_pos h]
    refine ⟨List.Perm.refl _, ?_⟩
    intro i j hij hjl
    omega
  · rw [if_neg h]
    refine quicksort_loop_post π
      (2 * stack_measure [(0, values.length - 1)] + 1)
      [(0, values.length - 1)] values (by simp) ?_ ?_ ?_
    · intro p hp
      rcases List.mem_singleton.mp hp with hp
      subst hp
      exact ⟨by omega, by omega⟩
    · exact List.pairwise_singleton _ _
    · intro i j hij hjl hseg
      exact absurd ⟨(0, values.length - 1), List.mem_singleton.mpr rfl,
        Nat.zero_le i, by omega⟩ hseg

/-! ## Matrix sorting (qbf.c `qbf_sort_clauses_in_matrix`, check.c quant-ordering wrapper) -/

/-- `qbf_get_quant_ordering_from_index_partial` (check.c lines 448-460; the C
`_partial` suffix refers to partial application and is dropped here): the
quantifier ordering of a literal's variable looked up in `prefix_mapping`,
with free (unmapped) variables treated as ordering 0. -/
def qbf_get_quant_ordering_from_index (qbf : QBF) (lit : Literal) : Nat :=
  match List.lookup (LIT2VAR lit) qbf.prefix_mapping with
  | none => 0
  | some quant => quant.ordering

/-- `qbf_sort_clauses_in_matrix` (qbf.c): sorts every matrix clause in place
by the quantifier ordering of its literals' variables. -/
def qbf_sort_clauses_in_matrix (qbf : QBF) : QBF :=
  { qbf with matrix := (qbf.matrix.map (fun clause =>
      iterative_inplace_quickort (qbf_get_quant_ordering_from_index qbf)
        clause)) }

/-- Index-wise sortedness of a list under a key gives chain-wise sortedness. -/
theorem sorted_nth_chain (π : Nat → Nat) (l : List Nat)
    (h : ∀ i j, i < j → j < l.length → π (nth l i) ≤ π (nth l j)) :
    List.Chain' (fun a b => π a ≤ π b) l := by
  rw [List.chain'_iff_get]
  intro i hi
  have h2 := h i (i + 1) (Nat.lt_succ_self i) (by omega)
  simp only [nth] at h2
  rw [List.getD_eq_getElem l 0 (by omega), List.getD_eq_getElem l 0 (by omega)]
    at h2
  simpa using h2

/-- Chain-wise sortedness of the quicksort output under its own key. -/
theorem iterative_inplace_quickort_chain (π : Nat → Nat) (values : List Nat) :
    List.Chain' (fun a b => π a ≤ π b)
      (iterative_inplace_quickort π values) := by
  obtain ⟨hperm, hsort⟩ := iterative_inplace_quickort_post π values
  refine sorted_nth_chain π _ ?_
  intro i j hij hjl
  exact hsort i j hij (by rw [← hperm.length_eq]; exact hjl)

theorem sorted_matrix_getD (qbf : QBF) (i : Nat) :
    (qbf_sort_clauses_in_matrix qbf).matrix.getD i [] =
      if i < qbf.matrix.length then
        iterative_inplace_quickort (qbf_get_quant_ordering_from_index qbf)
          (qbf.matrix.getD i [])
      else [] := by
  simp only [qbf_sort_clauses_in_matrix]
  by_cases hi : i < qbf.matrix.length
  · rw [if_pos hi, List.getD_eq_getElem _ _ (by simpa using hi),
      List.getElem_map, List.getD_eq_getElem _ _ hi]
  · rw [if_neg hi]
    exact List.getD_eq_default _ _ (by simpa using Nat.le_of_not_lt hi)

/-- C7: after `qbf_sort_clauses_in_matrix`, every matrix clause holds a
permutation of its previous literals in which adjacent literals are
non-decreasing in the quantifier ordering of their variables (free variables
ordering as 0); and the checker's per-clause sort of an expansion clause with
the identity projection yields a permutation with literals non-decreasing in
their integer literal encoding. -/
theorem c7_sort_invariants (qbf : QBF) (E : List Literal) :
    (qbf_sort_clauses_in_matrix qbf).matrix.length = qbf.matrix.length ∧
    (∀ i, ((qbf_sort_clauses_in_matrix qbf).matrix.getD i []).Perm
        (qbf.matrix.getD i [])) ∧
    (∀ i, List.Chain'
        (fun a b => qbf_get_quant_ordering_from_index qbf a ≤
          qbf_get_quant_ordering_from_index qbf b)
        ((qbf_sort_clauses_in_matrix qbf).matrix.getD i [])) ∧
    (iterative_inplace_quickort (fun x => x) E).Perm E ∧
    List.Chain' (fun a b => a ≤ b)
      (iterative_inplace_quickort (fun x => x) E) := by
  obtain ⟨hperm, hsort⟩ := iterative_inplace_quickort_post (fun x => x) E
  refine ⟨by simp [qbf_sort_clauses_in_matrix], ?_, ?_, hperm, ?_⟩
  · intro i
    rw [sorted_matrix_getD]
    by_cases hi : i < qbf.matrix.length
    · rw [if_pos hi]
      exact (iterative_inplace_quickort_post _ _).1
    · rw [if_neg hi,
        List.getD_eq_default _ _ (by simpa using Nat.le_of_not_lt hi)]
  · intro i
    rw [sorted_matrix_getD]
    by_cases hi : i < qbf.matrix.length
    · rw [if_pos hi]
      exact iterative_inplace_quickort_chain _ _
    · rw [if_neg hi]
      exact List.chain'_nil
  · exact iterative_inplace_quickort_chain (fun x => x) E

/-! ## C8: the sort key has no tie-breaking component -/

/-- A QBF with an empty prefix (both variables of the single clause free,
hence of equal quantifier ordering 0) and matrix `[[4, 2]]`. -/
def c8_qbf : QBF := ⟨[], [[4, 2]], []⟩

theorem c8_qbf_ordering (x : Literal) :
    qbf_get_quant_ordering_from_index c8_qbf x = 0 := rfl

theorem c8_go_eval :
    lomuto_go (qbf_get_quant_ordering_from_index c8_qbf) 0 1 [4, 2] 0 0 =
      ([4, 2], 1) := by
  rw [lomuto_go]
  simp only [c8_qbf_ordering]
  norm_num
  rw [lomuto_go]
  norm_num [listSwap, nth]

theorem c8_partition_eval :
    lomuto_partition (qbf_get_quant_ordering_from_index c8_qbf) [4, 2] 0 1 =
      ([4, 2], 1) := by
  rw [lomuto_partition, c8_qbf_ordering, c8_go_eval]
  norm_num

theorem c8_sort_eval :
    iterative_inplace_quickort (qbf_get_quant_ordering_from_index c8_qbf)
      [4, 2] = [4, 2] := by
  rw [iterative_inplace_quickort]
  norm_num
  rw [quicksort_loop, c8_partition_eval]
  norm_num
  rw [quicksort_loop]

/-- C8 counterexample: sorting the matrix of `c8_qbf` leaves the clause
`[4, 2]` unchanged — both variables have equal quantifier ordering 0, yet the
literals do not come out ascending by literal value, so ties are NOT broken
by literal value. -/
theorem c8_tie_break_counterexample :
    (qbf_sort_clauses_in_matrix c8_qbf).matrix = [[4, 2]] ∧
    (∀ x y, x ∈ [4, 2] → y ∈ [4, 2] →
      qbf_get_quant_ordering_from_index c8_qbf x =
        qbf_get_quant_ordering_from_index c8_qbf y) ∧
    ¬ List.Chain' (fun a b => a ≤ b)
        ((qbf_sort_clauses_in_matrix c8_qbf).matrix.getD 0 []) := by
  have hm : (qbf_sort_clauses_in_matrix c8_qbf).matrix = [[4, 2]] := by
    simp only [qbf_sort_clauses_in_matrix]
    rw [show c8_qbf.matrix = [[4, 2]] from rfl, List.map_cons, List.map_nil,
      c8_sort_eval]
  refine ⟨hm, fun x y _ _ => rfl, ?_⟩
  rw [hm]
  intro hchain
  rw [show ([[4, 2]] : List (List Nat)).getD 0 [] = [4, 2] from rfl] at hchain
  exact absurd (List.chain'_cons.mp hchain).1 (by decide)

/-- C8 (amended): after matrix sorting every clause is a permutation of its
previous literals that is non-decreasing in the quantifier ordering of the
literals' variables; no ordering among literals of equal quantifier ordering
is guaranteed (the comparison key is the quantifier ordering alone). -/
theorem c8_sort_key_amended (qbf : QBF) (i : Nat) :
    ((qbf_sort_clauses_in_matrix qbf).matrix.getD i []).Perm
      (qbf.matrix.getD i []) ∧
    List.Chain' (fun a b => qbf_get_quant_ordering_from_index qbf a ≤
      qbf_get_quant_ordering_from_index qbf b)
      ((qbf_sort_clauses_in_matrix qbf).matrix.getD i []) := by
  rw [sorted_matrix_getD]
  by_cases hi : i < qbf.matrix.length
  · rw [if_pos hi]
    exact ⟨(iterative_inplace_quickort_post _ _).1,
      iterative_inplace_quickort_chain _ _⟩
  · rw [if_neg hi,
      List.getD_eq_default _ _ (by simpa using Nat.le_of_not_lt hi)]
    exact ⟨List.Perm.refl [], List.chain'_nil⟩

/-! ## Clause checking (check.c, `ferat_check_expansion_clause` / `ferat_check`) -/

/-- Abnormal terminations of the checker: a failed `assert` (process abort),
or `fatal_parse_error` carrying its exit code. -/
inductive CheckAbort where
  | assertFail
  | fatalParse (code : Nat)
deriving DecidableEq, Repr

/-- `EXIT_PARSING_FAILURE` from common.h. -/
def EXIT_PARSING_FAILURE : Nat := 80

/-- `FERATCheckResultType` from check.h. -/
inductive FERATCheckResultType where
  | incorrect_literals
  | incorrect_annotation
deriving DecidableEq, Repr

/-- Outcome of the matrix loop of `ferat_check_expansion_clause`: `verified`
is the early `return` after both tests pass; otherwise the loop finishes and
the `found_matching_clause` flag picks the failure kind. -/
inductive IterOutcome where
  | verified
  | foundOnly
  | notFound
deriving DecidableEq, Repr

/-- The iterative (`!has_origins`) path of the matrix loop of
`ferat_check_expansion_clause` (check.c lines 300-336): scan the matrix
clauses in order, carrying the `found_matching_clause` flag. -/
def ferat_iter_search (exp_clause : List Literal) (qbf : QBF)
    (expansion : Expansion) :
    List (List Literal) → Bool → Except CheckAbort IterOutcome
  | [], found => .ok (if found then .foundOnly else .notFound)
  | qbf_clause :: rest, found =>
    match ferat_test_expansion_origin_in_QBF qbf_clause exp_clause qbf
        expansion with
    | none => .error .assertFail
    | some false => ferat_iter_search exp_clause qbf expansion rest found
    | some true =>
      match ferat_check_annotations_against_expansion qbf_clause exp_clause
          qbf expansion with
      | none => .error .assertFail
      | some true => .ok .verified
      | some false => ferat_iter_search exp_clause qbf expansion rest true

/-- The result records appended after the matrix loop (check.c lines
338-345). -/
def ferat_outcome_results (outcome : IterOutcome) (idx : Nat) :
    List (FERATCheckResultType × Nat) :=
  match outcome with
  | .verified => []
  | .foundOnly => [(FERATCheckResultType.incorrect_annotation, idx)]
  | .notFound => [(FERATCheckResultType.incorrect_literals, idx)]

/-- `ferat_check_expansion_clause` (check.c lines 280-346), returning the
appended check results together with the possibly-dropped `clause_origins`
map.  When origins are present the loop body runs at most once (`break`), and
only if the matrix is non-empty.  The fallback guard compares the matrix-loop
index `i` — which is `0` in that single iteration — against the origin map's
size, so falling back to iterative mode happens exactly when the origin map
is empty; otherwise `al32_get(clause_origins, exp_clause_index)` asserts
`exp_clause_index < clause_origins->size` (arraylist.h line 71). -/
def ferat_check_expansion_clause (exp_clause : List Literal)
    (exp_clause_index : Nat) (expansion : Expansion) (qbf : QBF) :
    Except CheckAbort (List (FERATCheckResultType × Nat) × Option (List Nat)) :=
  match expansion.clause_origins with
  | none =>
    match ferat_iter_search exp_clause qbf expansion qbf.matrix false with
    | .error e => .error e
    | .ok outcome =>
      .ok (ferat_outcome_results outcome exp_clause_index, none)
  | some origins =>
    if qbf.matrix.length = 0 then
      .ok ([(FERATCheckResultType.incorrect_literals, exp_clause_index)],
        some origins)
    else if origins.length = 0 then
      match ferat_iter_search exp_clause qbf expansion qbf.matrix false with
      | .error e => .error e
      | .ok outcome =>
        .ok (ferat_outcome_results outcome exp_clause_index, none)
    else if exp_clause_index < origins.length then
      if qbf.matrix.length ≤ origins.getD exp_clause_index 0 then
        .error (.fatalParse EXIT_PARSING_FAILURE)
      else
        match ferat_test_expansion_origin_in_QBF
            (qbf.matrix.getD (origins.getD exp_clause_index 0) [])
            exp_clause qbf expansion with
        | none => .error .assertFail
        | some false =>
          .ok ([(FERATCheckResultType.incorrect_literals, exp_clause_index)],
            some origins)
        | some true =>
          match ferat_check_annotations_against_expansion
              (qbf.matrix.getD (origins.getD exp_clause_index 0) [])
              exp_clause qbf expansion with
          | none => .error .assertFail
          | some true => .ok ([], some origins)
          | some false =>
            .ok ([(FERATCheckResultType.incorrect_annotation,
              exp_clause_index)], some origins)
    else
      .error .assertFail

/-- The clause loop of `ferat_check` (check.c lines 410-415): sort each
expansion clause with the identity projection, check it, and thread the
possibly-dropped origin map and the accumulated results. -/
def ferat_check_loop (qbf : QBF)
    (mappings : List (Variable × ExpVarMapping)) :
    List (List Literal) → Nat → Option (List Nat) →
    List (FERATCheckResultType × Nat) →
    Except CheckAbort (List (FERATCheckResultType × Nat))
  | [], _, _, acc => .ok acc
  | E :: rest, i, origins, acc =>
    match ferat_check_expansion_clause
        (iterative_inplace_quickort (fun x => x) E) i ⟨mappings, origins⟩
        qbf with
    | .error e => .error e
    | .ok (recs, origins') =>
      ferat_check_loop qbf mappings rest (i + 1) origins' (acc ++ recs)

/-- `ferat_check` (check.c lines 398-423) over the pre-parsed list of
expansion clauses; the returned Boolean is `result->num_results == 0`. -/
def ferat_check (qbf : QBF) (expansion : Expansion)
    (exp_clauses : List (List Literal)) :
    Except CheckAbort (List (FERATCheckResultType × Nat) × Bool) :=
  match ferat_check_loop qbf expansion.exp_var_mappings exp_clauses 0
      expansion.clause_origins [] with
  | .error e => .error e
  | .ok recs => .ok (recs, recs.length == 0)

/-- Behaviour of the iterative matrix scan: one induction for the three
outcomes.  Hypothesis `hdef`: on every scanned clause the existential test is
defined (no assert abort), and where it passes the annotation test is defined
as well. -/
theorem ferat_iter_search_spec (E : List Literal) (qbf : QBF)
    (expansion : Expansion) :
    ∀ (M : List (List Literal)) (found : Bool),
      (∀ C ∈ M, ∃ b,
        ferat_test_expansion_origin_in_QBF C E qbf expansion = some b ∧
        (b = true →
          (ferat_check_annotations_against_expansion C E qbf
            expansion).isSome)) →
      ((∃ C ∈ M,
          ferat_test_expansion_origin_in_QBF C E qbf expansion = some true ∧
          ferat_check_annotations_against_expansion C E qbf expansion =
            some true) →
        ferat_iter_search E qbf expansion M found = .ok .verified) ∧
      (¬ (∃ C ∈ M,
          ferat_test_expansion_origin_in_QBF C E qbf expansion = some true ∧
          ferat_check_annotations_against_expansion C E qbf expansion =
            some true) →
        ((found = true ∨ ∃ C ∈ M,
            ferat_test_expansion_origin_in_QBF C E qbf expansion =
              some true) →
          ferat_iter_search E qbf expansion M found = .ok .foundOnly) ∧
        (found = false →
          (∀ C ∈ M,
            ferat_test_expansion_origin_in_QBF C E qbf expansion ≠
              some true) →
          ferat_iter_search E qbf expansion M found = .ok .notFound)) := by
  intro M
  induction M with
  | nil =>
    intro found _
    refine ⟨fun h => ?_, fun _ => ⟨fun h => ?_, fun hf _ => ?_⟩⟩
    · obtain ⟨C, hC, _⟩ := h
      exact absurd hC (List.not_mem_nil C)
    · rcases h with h | ⟨C, hC, _⟩
      · rw [ferat_iter_search, h]
        rfl
      · exact absurd hC (List.not_mem_nil C)
    · rw [ferat_iter_search, hf]
      rfl
  | cons C M ih =>
    intro found hdef
    obtain ⟨b, hb, hba⟩ := hdef C (List.mem_cons_self C M)
    have hdef' : ∀ C' ∈ M, ∃ b,
        ferat_test_expansion_origin_in_QBF C' E qbf expansion = some b ∧
        (b = true →
          (ferat_check_annotations_against_expansion C' E qbf
            expansion).isSome) :=
      fun C' h => hdef C' (List.mem_cons_of_mem C h)
    cases b with
    | false =>
      have hstep : ferat_iter_search E qbf expansion (C :: M) found =
          ferat_iter_search E qbf expansion M found := by
        rw [ferat_iter_search, hb]
      refine ⟨fun h => ?_, fun hnot => ⟨fun h => ?_, fun hf hall => ?_⟩⟩
      · rw [hstep]
        obtain ⟨C', hC', h1, h2⟩ := h
        rcases List.mem_cons.mp hC' with h' | h'
        · subst h'
          rw [hb] at h1
          cases h1
        · exact (ih found hdef').1 ⟨C', h', h1, h2⟩
      · rw [hstep]
        have hnot' : ¬ (∃ C' ∈ M,
            ferat_test_expansion_origin_in_QBF C' E qbf expansion =
              some true ∧
            ferat_check_annotations_against_expansion C' E qbf expansion =
              some true) := by
          rintro ⟨C', hC', h1, h2⟩
          exact hnot ⟨C', List.mem_cons_of_mem C hC', h1, h2⟩
        refine ((ih found hdef').2 hnot').1 ?_
        rcases h with h | ⟨C', hC', h1⟩
        · exact Or.inl h
        · rcases List.mem_cons.mp hC' with h' | h'
          · subst h'
            rw [hb] at h1
            cases h1
          · exact Or.inr ⟨C', h', h1⟩
      · rw [hstep]
        have hnot' : ¬ (∃ C' ∈ M,
            ferat_test_expansion_origin_in_QBF C' E qbf expansion =
              some true ∧
            ferat_check_annotations_against_expansion C' E qbf expansion =
              some true) := by
          rintro ⟨C', hC', h1, h2⟩
          exact hnot ⟨C', List.mem_cons_of_mem C hC', h1, h2⟩
        exact ((ih found hdef').2 hnot').2 hf
          (fun C' h => hall C' (List.mem_cons_of_mem C h))
    | true =>
      obtain ⟨a, ha⟩ := Option.isSome_iff_exists.mp (hba rfl)
      cases a with
      | true =>
        have hstep : ferat_iter_search E qbf expansion (C :: M) found =
            .ok .verified := by
          rw [ferat_iter_search, hb, ha]
        refine ⟨fun _ => hstep, fun hnot => ⟨fun _ => ?_, fun _ hall => ?_⟩⟩
        · exact absurd ⟨C, List.mem_cons_self C M, hb, ha⟩ hnot
        · exact absurd hb (hall C (List.mem_cons_self C M))
      | false =>
        have hstep : ferat_iter_search E qbf expansion (C :: M) found =
            ferat_iter_search E qbf expansion M true := by
          rw [ferat_iter_search, hb, ha]
        refine ⟨fun h => ?_, fun hnot => ⟨fun _ => ?_, fun _ hall => ?_⟩⟩
        · rw [hstep]
          obtain ⟨C', hC', h1, h2⟩ := h
          rcases List.mem_cons.mp hC' with h' | h'
          · subst h'
            rw [ha] at h2
            cases h2
          · exact (ih true hdef').1 ⟨C', h', h1, h2⟩
        · rw [hstep]
          have hnot' : ¬ (∃ C' ∈ M,
              ferat_test_expansion_origin_in_QBF C' E qbf expansion =
                some true ∧
              ferat_check_annotations_against_expansion C' E qbf expansion =
                some true) := by
            rintro ⟨C', hC', h1, h2⟩
            exact hnot ⟨C', List.mem_cons_of_mem C hC', h1, h2⟩
          exact ((ih true hdef').2 hnot').1 (Or.inl rfl)
        · exact absurd hb (hall C (List.mem_cons_self C M))

/-- C3: in iterative mode (no origin map), for an expansion clause whose
existential and (where reached) annotation tests are defined on every matrix
clause: if no matrix clause passes the existential-literal test, exactly one
`INCORRECT_LITERALS` failure carrying the clause's 0-based index is appended;
if at least one passes it but none of those also passes the annotation test,
exactly one `INCORRECT_ANNOTATION` failure with that index is appended; if
some matrix clause passes both tests, no failure is appended; and
`ferat_check` returns `true` iff the result's failure count is zero. -/
theorem c3_iterative_clause_check (E : List Literal) (idx : Nat) (qbf : QBF)
    (expansion : Expansion)
    (horig : expansion.clause_origins = none)
    (hdef : ∀ C ∈ qbf.matrix, ∃ b,
      ferat_test_expansion_origin_in_QBF C E qbf expansion = some b ∧
      (b = true →
        (ferat_check_annotations_against_expansion C E qbf
          expansion).isSome)) :
    ((∀ C ∈ qbf.matrix,
        ferat_test_expansion_origin_in_QBF C E qbf expansion ≠ some true) →
      ferat_check_expansion_clause E idx expansion qbf =
        .ok ([(FERATCheckResultType.incorrect_literals, idx)], none)) ∧
    ((∃ C ∈ qbf.matrix,
        ferat_test_expansion_origin_in_QBF C E qbf expansion = some true) →
      (∀ C ∈ qbf.matrix,
        ferat_test_expansion_origin_in_QBF C E qbf expansion = some true →
        ferat_check_annotations_against_expansion C E qbf expansion =
          some false) →
      ferat_check_expansion_clause E idx expansion qbf =
        .ok ([(FERATCheckResultType.incorrect_annotation, idx)], none)) ∧
    ((∃ C ∈ qbf.matrix,
        ferat_test_expansion_origin_in_QBF C E qbf expansion = some true ∧
        ferat_check_annotations_against_expansion C E qbf expansion =
          some true) →
      ferat_check_expansion_clause E idx expansion qbf = .ok ([], none)) ∧
    (∀ (exp_clauses : List (List Literal))
       (recs : List (FERATCheckResultType × Nat)) (b : Bool),
      ferat_check qbf expansion exp_clauses = .ok (recs, b) →
      (b = true ↔ recs.length = 0)) := by
  have hiter := ferat_iter_search_spec E qbf expansion qbf.matrix false hdef
  have hcc : ferat_check_expansion_clause E idx expansion qbf =
      match ferat_iter_search E qbf expansion qbf.matrix false with
      | .error e => .error e
      | .ok outcome => .ok (ferat_outcome_results outcome idx, none) := by
    rw [ferat_check_expansion_clause, horig]
  refine ⟨fun hall => ?_, fun hex hannot => ?_, fun hboth => ?_,
    fun cls recs b h => ?_⟩
  · have hnotboth : ¬ (∃ C ∈ qbf.matrix,
        ferat_test_expansion_origin_in_QBF C E qbf expansion = some true ∧
        ferat_check_annotations_against_expansion C E qbf expansion =
          some true) := by
      rintro ⟨C, hC, h1, _⟩
      exact hall C hC h1
    rw [hcc, (hiter.2 hnotboth).2 rfl hall]
    rfl
  · have hnotboth : ¬ (∃ C ∈ qbf.matrix,
        ferat_test_expansion_origin_in_QBF C E qbf expansion = some true ∧
        ferat_check_annotations_against_expansion C E qbf expansion =
          some true) := by
      rintro ⟨C, hC, h1, h2⟩
      rw [hannot C hC h1] at h2
      cases h2
    rw [hcc, (hiter.2 hnotboth).1 (Or.inr hex)]
    rfl
  · rw [hcc, hiter.1 hboth]
    rfl
  · rw [ferat_check] at h
    rcases hl : ferat_check_loop qbf expansion.exp_var_mappings cls 0
        expansion.clause_origins [] with e | r
    · rw [hl] at h
      cases h
    · rw [hl] at h
      cases h
      simp [Nat.beq_eq_true_eq]

/-- A concrete QBF for the C3 witness: empty prefix, matrix `[[]]`. -/
def c3_qbf : QBF := ⟨[], [[]], []⟩

/-- Witness for C3: on the empty expansion clause against `c3_qbf` (where the
empty matrix clause passes both tests), no failure is appended. -/
theorem c3_iterative_clause_check_witness :
    ferat_check_expansion_clause [] 0 ⟨[], none⟩ c3_qbf = .ok ([], none) :=
  (c3_iterative_clause_check [] 0 c3_qbf ⟨[], none⟩ rfl
    (by decide)).2.2.1 ⟨[], by decide, by decide, by decide⟩

/-! ### The two per-clause tests read only the variable mappings, never the
origin map -/

theorem ferat_exp_lits_origins_congr (Q : List Literal)
    (m : List (Variable × ExpVarMapping)) (o1 o2 : Option (List Nat)) :
    ∀ E, ferat_exp_lits_in_qbf_clause Q ⟨m, o1⟩ E =
      ferat_exp_lits_in_qbf_clause Q ⟨m, o2⟩ E := by
  intro E
  induction E with
  | nil => rfl
  | cons e rest ih =>
    simp only [ferat_exp_lits_in_qbf_clause]
    rcases h : List.lookup (LIT2VAR e) m with _ | mp
    · rfl
    · dsimp only
      by_cases hc : Q.contains (VAR2LIT mp.qbf_var (LITSIGNBIT e))
      · rw [if_pos hc, if_pos hc, ih]
      · rw [if_neg hc, if_neg hc]

theorem exist_test_origins_congr (Q E : List Literal) (qbf : QBF)
    (m : List (Variable × ExpVarMapping)) (o1 o2 : Option (List Nat)) :
    ferat_test_expansion_origin_in_QBF Q E qbf ⟨m, o1⟩ =
    ferat_test_expansion_origin_in_QBF Q E qbf ⟨m, o2⟩ := by
  rw [ferat_test_expansion_origin_in_QBF,
    ferat_test_expansion_origin_in_QBF,
    ferat_exp_lits_origins_congr Q m o1 o2 E]

theorem ferat_annot_loop_origins_congr (qbf : QBF) (Q : List Literal)
    (m : List (Variable × ExpVarMapping)) (o1 o2 : Option (List Nat)) :
    ∀ E U V last num,
      ferat_annot_loop qbf Q ⟨m, o1⟩ E U V last num =
      ferat_annot_loop qbf Q ⟨m, o2⟩ E U V last num := by
  intro E
  induction E with
  | nil =>
    intro U V last num
    rfl
  | cons e rest ih =>
    intro U V last num
    simp only [ferat_annot_loop]
    rcases h : List.lookup (LIT2VAR e) m with _ | mp
    · rfl
    · dsimp only
      rcases hq : List.lookup mp.qbf_var qbf.prefix_mapping with _ | quant
      · dsimp only
        rcases hb : mp.annot.length != 0 with _ | _
        · exact ih U V last num
        · rfl
      · dsimp only
        rcases hscan : ferat_annot_scan qbf Q (U, V, num) last
            quant.ordering with ⟨U', V', num'⟩
        dsimp only
        rcases hb1 : mp.annot.length != num' with _ | _
        · rcases hb2 : mp.annot.all (fun a =>
              allit_binary_search_contains V' a ||
              allit_binary_search_contains U' a) with _ | _
          · rfl
          · exact ih U' _ quant.ordering num'
        · rfl

theorem annot_test_origins_congr (Q E : List Literal) (qbf : QBF)
    (m : List (Variable × ExpVarMapping)) (o1 o2 : Option (List Nat)) :
    ferat_check_annotations_against_expansion Q E qbf ⟨m, o1⟩ =
    ferat_check_annotations_against_expansion Q E qbf ⟨m, o2⟩ :=
  ferat_annot_loop_origins_congr qbf Q m o1 o2 E [] [] 0 0

theorem iter_search_origins_congr (E : List Literal) (qbf : QBF)
    (m : List (Variable × ExpVarMapping)) (o1 o2 : Option (List Nat)) :
    ∀ M found, ferat_iter_search E qbf ⟨m, o1⟩ M found =
      ferat_iter_search E qbf ⟨m, o2⟩ M found := by
  intro M
  induction M with
  | nil =>
    intro found
    rfl
  | cons C rest ih =>
    intro found
    simp only [ferat_iter_search]
    rw [exist_test_origins_congr C E qbf m o1 o2]
    rcases hx : ferat_test_expansion_origin_in_QBF C E qbf ⟨m, o2⟩
        with _ | b
    · rfl
    · cases b with
      | false => exact ih found
      | true =>
        rw [annot_test_origins_congr C E qbf m o1 o2]
        rcases ha : ferat_check_annotations_against_expansion C E qbf
            ⟨m, o2⟩ with _ | a
        · rfl
        · cases a with
          | true => rfl
          | false => exact ih true

/-! ### C4: the origin-map fallback guard tests the wrong index -/

/-- A QBF with a single (empty) matrix clause, for exercising the
origin-map paths. -/
def c4_qbf : QBF := ⟨[], [[]], []⟩

/-- C4: behaviour of the origin-map paths on `c4_qbf` (matrix size 1).
With origin map `[0]` and expansion-clause index 1, the map is exhausted and
the claimed warn-and-fall-back does NOT happen: `al32_get(clause_origins, 1)`
fails its bounds assertion, because the fallback guard compares the
matrix-loop index `i = 0` — not the expansion-clause index — against the
map's size.  The same clause in iterative mode is verified.  The other two
origin paths behave as claimed: an in-range entry pointing outside the
matrix is fatal with exit code 80, and an empty origin map does warn and
fall back to the iterative scan. -/
theorem c4_origin_fallback_bug :
    ferat_check_expansion_clause [] 1 ⟨[], some [0]⟩ c4_qbf =
      .error .assertFail ∧
    ferat_check_expansion_clause [] 1 ⟨[], none⟩ c4_qbf = .ok ([], none) ∧
    ferat_check_expansion_clause [] 0 ⟨[], some [5]⟩ c4_qbf =
      .error (.fatalParse EXIT_PARSING_FAILURE) ∧
    ferat_check_expansion_clause [] 0 ⟨[], some []⟩ c4_qbf =
      .ok ([], none) :=
  ⟨rfl, rfl, rfl, rfl⟩

/-! ### C9: unmapped expansion literals abort the existential test -/

/-- C9 (amended): for an expansion clause containing a literal whose
variable has no mapping record, the existential test scans the clause in
order and returns `false` at the first mapped literal whose translation is
absent from the candidate, looking up a literal's mapping only when all
earlier literals translated; two regimes therefore arise in iterative mode.
(1) If the clause's first literal is the unmapped one, every candidate scan
hits `assert(result.ok)` (check.c line 105) immediately, so with a non-empty
matrix the checker terminates abnormally instead of recording a failure.
(2) If every matrix clause's existential test returns `false` — its scan
stopping at an earlier mapped-but-absent literal before the unmapped one is
looked up — an `INCORRECT_LITERALS` failure with the clause's index is
recorded and checking continues, as the claim describes. -/
theorem c9_unmapped_assertion (qbf : QBF) (expansion : Expansion)
    (E : List Nat) (idx : Nat)
    (horig : expansion.clause_origins = none)
    (hunm : ∃ e ∈ E,
      List.lookup (LIT2VAR e) expansion.exp_var_mappings = none) :
    (∀ e E', E = e :: E' →
      List.lookup (LIT2VAR e) expansion.exp_var_mappings = none →
      qbf.matrix ≠ [] →
      ferat_check_expansion_clause E idx expansion qbf =
        .error .assertFail) ∧
    ((∀ C ∈ qbf.matrix,
        ferat_test_expansion_origin_in_QBF C E qbf expansion =
          some false) →
      ferat_check_expansion_clause E idx expansion qbf =
        .ok ([(FERATCheckResultType.incorrect_literals, idx)], none)) := by
  refine ⟨fun e E' hE hm hmat => ?_, fun hall => ?_⟩
  · subst hE
    have hex : ∀ C, ferat_test_expansion_origin_in_QBF C (e :: E') qbf
        expansion = none := by
      intro C
      rw [ferat_test_expansion_origin_in_QBF]
      simp only [ferat_exp_lits_in_qbf_clause, hm]
    rcases hM : qbf.matrix with _ | ⟨C, M⟩
    · exact absurd hM hmat
    · rw [ferat_check_expansion_clause, horig, hM, ferat_iter_search,
        hex C]
  · have hdef : ∀ C ∈ qbf.matrix, ∃ b,
        ferat_test_expansion_origin_in_QBF C E qbf expansion = some b ∧
        (b = true →
          (ferat_check_annotations_against_expansion C E qbf
            expansion).isSome) :=
      fun C hC => ⟨false, hall C hC, fun h => Bool.noConfusion h⟩
    have hnb : ¬ (∃ C ∈ qbf.matrix,
        ferat_test_expansion_origin_in_QBF C E qbf expansion = some true ∧
        ferat_check_annotations_against_expansion C E qbf expansion =
          some true) := by
      rintro ⟨C, hC, h1, _⟩
      rw [hall C hC] at h1
      cases h1
    have hiter := ((ferat_iter_search_spec E qbf expansion qbf.matrix false
      hdef).2 hnb).2 rfl (fun C hC h => by rw [hall C hC] at h; cases h)
    rw [ferat_check_expansion_clause, horig, hiter]
    rfl

/-- A QBF for the C9 witness and counterexample: empty prefix, one empty
matrix clause. -/
def c9_qbf : QBF := ⟨[], [[]], []⟩

/-- A QBF for the C9 witness's regime (2): matrix `[[3]]`. -/
def c9w_qbf : QBF := ⟨[], [[3]], []⟩

/-- Witness for the amended C9 theorem, regime (2): in the clause `[4, 6]`
literal 4 (variable 2) is mapped to QBF variable 1 but its translation
(literal 2) is absent from the only matrix clause `[3]`, so the scan stops
with `false` before the unmapped literal 6 (variable 3) is looked up:
`INCORRECT_LITERALS` is recorded and checking continues. -/
theorem c9_unmapped_assertion_witness :
    ferat_check_expansion_clause [4, 6] 0
        ⟨[(2, ⟨1, 2, []⟩)], none⟩ c9w_qbf =
      .ok ([(FERATCheckResultType.incorrect_literals, 0)], none) :=
  (c9_unmapped_assertion c9w_qbf ⟨[(2, ⟨1, 2, []⟩)], none⟩ [4, 6] 0 rfl
    (by decide)).2 (by decide)

/-- C9 counterexample: on the expansion clause `[2]` whose variable 1 has no
mapping record, both the clause check and the whole `ferat_check` run abort
with an assertion failure; no `INCORRECT_LITERALS` result is recorded and
checking does not continue. -/
theorem c9_unmapped_counterexample :
    ferat_check_expansion_clause [2] 0 ⟨[], none⟩ c9_qbf =
      .error .assertFail ∧
    ferat_check c9_qbf ⟨[], none⟩ [[2]] = .error .assertFail :=
  ⟨rfl, rfl⟩

/-! ### C5: toggling the origin map can change the verdict -/

/-- QBF `∀ x1 ∃ x2 . (x1 ∨ x2) ∧ (¬x1 ∨ x2)` (variables 1, 2; literals
2/3 = x1/¬x1, 4 = x2). -/
def c5_qbf : QBF :=
  ⟨[⟨QuantType.universal, 0, [1]⟩, ⟨QuantType.existential, 1, [2]⟩],
   [[2, 4], [3, 4]],
   [(1, ⟨QuantType.universal, 0, [1]⟩), (2, ⟨QuantType.existential, 1, [2]⟩)]⟩

/-- One expansion variable 3 (literal 6) standing for QBF variable 2 under
the annotation `[¬x1]` (literal 2... the annotation literal 2 is `x1`). -/
def c5_mappings : List (Variable × ExpVarMapping) := [(3, ⟨2, 3, [2]⟩)]

theorem c5_annot_O :
    ferat_check_annotations_against_expansion [2, 4] [6] c5_qbf
      ⟨c5_mappings, some [0]⟩ = some false := by
  rw [ferat_check_annotations_against_expansion]
  exact (ferat_annot_loop_spec _ [2, 4] _ [6] [] [] [] 0 (by decide)
    (by decide) (fun e _ => Nat.zero_le _) List.Pairwise.nil
    List.Pairwise.nil (List.Perm.refl []) (List.Perm.refl [])).trans
    (by decide)

theorem c5_annot_N0 :
    ferat_check_annotations_against_expansion [2, 4] [6] c5_qbf
      ⟨c5_mappings, none⟩ = some false := by
  rw [ferat_check_annotations_against_expansion]
  exact (ferat_annot_loop_spec _ [2, 4] _ [6] [] [] [] 0 (by decide)
    (by decide) (fun e _ => Nat.zero_le _) List.Pairwise.nil
    List.Pairwise.nil (List.Perm.refl []) (List.Perm.refl [])).trans
    (by decide)

theorem c5_annot_N1 :
    ferat_check_annotations_against_expansion [3, 4] [6] c5_qbf
      ⟨c5_mappings, none⟩ = some true := by
  rw [ferat_check_annotations_against_expansion]
  exact (ferat_annot_loop_spec _ [3, 4] _ [6] [] [] [] 0 (by decide)
    (by decide) (fun e _ => Nat.zero_le _) List.Pairwise.nil
    List.Pairwise.nil (List.Perm.refl []) (List.Perm.refl [])).trans
    (by decide)

/-- Reduction of the origins path when the map entry is in range, the
existential test passes and the annotation test fails. -/
theorem clause_check_origins_step (E : List Literal) (idx : Nat)
    (m : List (Variable × ExpVarMapping)) (os : List Nat) (qbf : QBF)
    (h0 : ¬ qbf.matrix.length = 0) (h1 : ¬ os.length = 0)
    (h2 : idx < os.length)
    (h3 : ¬ qbf.matrix.length ≤ os.getD idx 0)
    (hx : ferat_test_expansion_origin_in_QBF
      (qbf.matrix.getD (os.getD idx 0) []) E qbf ⟨m, some os⟩ = some true)
    (ha : ferat_check_annotations_against_expansion
      (qbf.matrix.getD (os.getD idx 0) []) E qbf ⟨m, some os⟩ =
        some false) :
    ferat_check_expansion_clause E idx ⟨m, some os⟩ qbf =
      .ok ([(FERATCheckResultType.incorrect_annotation, idx)], some os) := by
  rw [ferat_check_expansion_clause]
  dsimp only
  rw [if_neg h0, if_neg h1, if_pos h2, if_neg h3, hx]
  dsimp only
  rw [ha]

/-- `ferat_check` on a single expansion clause, given the clause check's
result. -/
theorem ferat_check_singleton (qbf : QBF)
    (m : List (Variable × ExpVarMapping)) (os o' : Option (List Nat))
    (E : List Literal) (recs : List (FERATCheckResultType × Nat))
    (h : ferat_check_expansion_clause
      (iterative_inplace_quickort (fun x => x) E) 0 ⟨m, os⟩ qbf =
        .ok (recs, o')) :
    ferat_check qbf ⟨m, os⟩ [E] = .ok (recs, recs.length == 0) := by
  rw [ferat_check]
  dsimp only
  rw [ferat_check_loop, h]
  dsimp only
  rw [ferat_check_loop]
  rw [List.nil_append]

/-- Evaluation of the iterative clause check on the C5 instance: the first
matrix clause passes the existential test but fails the annotation test, the
second passes both, so the clause is verified and nothing is recorded. -/
theorem c5_iterative_eval :
    ferat_check_expansion_clause [6] 0 ⟨c5_mappings, none⟩ c5_qbf =
      .ok ([], none) := by
  have hdef : ∀ C ∈ c5_qbf.matrix, ∃ b,
      ferat_test_expansion_origin_in_QBF C [6] c5_qbf
        ⟨c5_mappings, none⟩ = some b ∧
      (b = true →
        (ferat_check_annotations_against_expansion C [6] c5_qbf
          ⟨c5_mappings, none⟩).isSome) := by
    intro C hC
    rcases List.mem_cons.mp hC with h | h
    · subst h
      exact ⟨true, by decide, fun _ => by rw [c5_annot_N0]; rfl⟩
    · rcases List.mem_cons.mp h with h' | h'
      · subst h'
        exact ⟨true, by decide, fun _ => by rw [c5_annot_N1]; rfl⟩
      · exact absurd h' (List.not_mem_nil C)
  have hiter := (ferat_iter_search_spec [6] c5_qbf ⟨c5_mappings, none⟩
    c5_qbf.matrix false hdef).1
    ⟨[3, 4], by decide, by decide, c5_annot_N1⟩
  rw [ferat_check_expansion_clause,
    show (⟨c5_mappings, none⟩ : Expansion).clause_origins = none from rfl]
  rw [hiter]
  rfl

/-- C5 counterexample: on `c5_qbf` with the single expansion clause `[6]`
(annotation `[2]` for its literal), the run with the `c o 1` origin map
reports `INCORRECT_ANNOTATION` and verdict `false` (the origin-selected
first matrix clause `[2, 4]` fails the annotation test and no other
candidate is tried), while the run without the origin map scans on to the
second matrix clause `[3, 4]`, which verifies the clause, and returns
verdict `true`. -/
theorem c5_origin_toggle_counterexample :
    ferat_check c5_qbf ⟨c5_mappings, some [0]⟩ [[6]] =
      .ok ([(FERATCheckResultType.incorrect_annotation, 0)], false) ∧
    ferat_check c5_qbf ⟨c5_mappings, none⟩ [[6]] = .ok ([], true) := by
  constructor
  · exact ferat_check_singleton c5_qbf c5_mappings (some [0]) (some [0]) [6]
      [(FERATCheckResultType.incorrect_annotation, 0)]
      (clause_check_origins_step [6] 0 c5_mappings [0] c5_qbf (by decide)
        (by decide) (by decide) (by decide) (by decide) c5_annot_O)
  · exact ferat_check_singleton c5_qbf c5_mappings none none [6] []
      c5_iterative_eval

/-- C5 (amended): origins are sound in one direction only.  If the
origins-mode clause check verifies an expansion clause (appends no failure
and keeps its map), then — provided both tests are defined on every matrix
clause — the same clause is also verified in iterative mode with the origin
line absent.  The converse fails: when the origin-selected candidate passes
the existential test but fails the annotation test, no other candidate is
tried, while the iterative scan may find a later matrix clause that passes
both tests. -/
theorem c5_origin_soundness (E : List Literal) (idx : Nat) (qbf : QBF)
    (m : List (Variable × ExpVarMapping)) (os : List Nat)
    (hdef : ∀ C ∈ qbf.matrix, ∃ b,
      ferat_test_expansion_origin_in_QBF C E qbf ⟨m, some os⟩ = some b ∧
      (b = true →
        (ferat_check_annotations_against_expansion C E qbf
          ⟨m, some os⟩).isSome))
    (hok : ferat_check_expansion_clause E idx ⟨m, some os⟩ qbf =
      .ok ([], some os)) :
    ferat_check_expansion_clause E idx ⟨m, none⟩ qbf = .ok ([], none) := by
  rw [ferat_check_expansion_clause] at hok
  dsimp only at hok
  by_cases h0 : qbf.matrix.length = 0
  · rw [if_pos h0] at hok
    cases hok
  rw [if_neg h0] at hok
  by_cases h1 : os.length = 0
  · rw [if_pos h1] at hok
    rcases hit : ferat_iter_search E qbf ⟨m, some os⟩ qbf.matrix false
        with e | outc
    · rw [hit] at hok
      cases hok
    · rw [hit] at hok
      dsimp only at hok
      simp only [Except.ok.injEq, Prod.mk.injEq] at hok
      exact Option.noConfusion hok.2
  rw [if_neg h1] at hok
  by_cases h2 : idx < os.length
  swap
  · rw [if_neg h2] at hok
    cases hok
  rw [if_pos h2] at hok
  by_cases h3 : qbf.matrix.length ≤ os.getD idx 0
  · rw [if_pos h3] at hok
    cases hok
  rw [if_neg h3] at hok
  rcases hx : ferat_test_expansion_origin_in_QBF
      (qbf.matrix.getD (os.getD idx 0) []) E qbf ⟨m, some os⟩ with _ | b
  · rw [hx] at hok
    cases hok
  rw [hx] at hok
  cases b with
  | false =>
    dsimp only at hok
    cases hok
  | true =>
    dsimp only at hok
    rcases ha : ferat_check_annotations_against_expansion
        (qbf.matrix.getD (os.getD idx 0) []) E qbf ⟨m, some os⟩ with _ | a
    · rw [ha] at hok
      cases hok
    rw [ha] at hok
    cases a with
    | false =>
      dsimp only at hok
      cases hok
    | true =>
      have hcand : qbf.matrix.getD (os.getD idx 0) [] ∈ qbf.matrix := by
        rw [List.getD_eq_getElem _ _ (by omega)]
        exact List.getElem_mem _
      have hdefN : ∀ C ∈ qbf.matrix, ∃ b,
          ferat_test_expansion_origin_in_QBF C E qbf ⟨m, none⟩ = some b ∧
          (b = true →
            (ferat_check_annotations_against_expansion C E qbf
              ⟨m, none⟩).isSome) := by
        intro C hC
        obtain ⟨b, hb, hba⟩ := hdef C hC
        exact ⟨b, (exist_test_origins_congr C E qbf m none (some os)).trans
            hb,
          fun h => by
            rw [annot_test_origins_congr C E qbf m none (some os)]
            exact hba h⟩
      have hboth : ∃ C ∈ qbf.matrix,
          ferat_test_expansion_origin_in_QBF C E qbf ⟨m, none⟩ =
            some true ∧
          ferat_check_annotations_against_expansion C E qbf ⟨m, none⟩ =
            some true :=
        ⟨qbf.matrix.getD (os.getD idx 0) [], hcand,
          (exist_test_origins_congr _ E qbf m none (some os)).trans hx,
          (annot_test_origins_congr _ E qbf m none (some os)).trans ha⟩
      have hiter := (ferat_iter_search_spec E qbf ⟨m, none⟩ qbf.matrix
        false hdefN).1 hboth
      rw [ferat_check_expansion_clause,
        show (⟨m, none⟩ : Expansion).clause_origins = none from rfl, hiter]
      rfl

/-- Witness for the amended C5 theorem: a QBF with matrix `[[]]`, empty
mappings, origin map `[0]`; the origins mode verifies the empty expansion
clause, hence so does the iterative mode. -/
theorem c5_origin_soundness_witness :
    ferat_check_expansion_clause [] 0 ⟨[], none⟩ (⟨[], [[]], []⟩ : QBF) =
      .ok ([], none) :=
  c5_origin_soundness [] 0 ⟨[], [[]], []⟩ [] [0] (by decide) rfl
